import Mathlib

/-!
# vcf2snp: allele normalisation and genotype classification

A shallow embedding of `src/vcf2snp.go` (package `main`): the function `getCall`
and the record loop of `main`, followed by theorems about them.

Conventions of the embedding.

* A Go `string` is a sequence of bytes.  It is modelled as a `List Char`, one
  element per byte; `len(s)` is `List.length`, `s[i:]` is `List.drop` guarded by the
  bounds check Go performs, and `s[i]` is a guarded list access.
* Go `int` values (lengths, genotype indices, counters) are `Int`; `uint64`
  positions are `Nat`, reduced modulo `2^64` where the source adds to them.
* A run-time fault of the Go program (index out of range) is the value `none`
  of an `Option`, so it is distinguished both from a returned `error` and from a
  normal result.
-/

namespace Vcf2snp

/-- A Go string: a sequence of bytes, one `Char` per byte. -/
abbrev GoString := List Char

/-- The character class `[ACTG]` of the regular expression `g`. -/
def isBase (c : Char) : Bool :=
  c == 'A' || c == 'C' || c == 'T' || c == 'G'

/-- The call `g.MatchString(s)` with `g = regexp.MustCompile("^[ACTG]+$")`: the text is
non-empty and each of its bytes is one of `A`, `C`, `T`, `G`. -/
def MatchString (s : GoString) : Bool :=
  !s.isEmpty && s.all isBase

/-- The call `strconv.Itoa(i)`: decimal digits, with a leading minus sign for a
negative number. -/
def Itoa (i : Int) : GoString :=
  if i < 0 then '-' :: Nat.toDigits 10 i.natAbs else Nat.toDigits 10 i.toNat

/-- The call `strconv.FormatUint(n, 10)`. -/
def FormatUint (n : Nat) : GoString :=
  Nat.toDigits 10 n

/-- The conversion `string(b)` of a single byte `b`: the UTF-8 encoding of the code
point `b`, which is the byte itself below `0x80` and two bytes from there on. -/
def byteToString (b : Char) : GoString :=
  if b.toNat < 128 then [b]
  else [Char.ofNat (192 + b.toNat / 64), Char.ofNat (128 + b.toNat % 64)]

/-- The conversion `uint64(i)` of a Go `int`. -/
def toUint64 (i : Int) : Nat :=
  (i % 2 ^ 64).toNat

/-- The index expression `s[i]` on a string or slice: `none` when Go faults with an
index out of range. -/
def index {α : Type} (s : List α) (i : Int) : Option α :=
  if 0 ≤ i then s.get? i.toNat else none

/-- The slice expression `s[i:]` on a string: `none` when Go faults with slice bounds
out of range. -/
def sliceFrom (s : GoString) (i : Int) : Option GoString :=
  if 0 ≤ i ∧ i ≤ (s.length : Int) then some (s.drop i.toNat) else none

/-- The three `fmt.Errorf` values `getCall` can return, with the arguments of the
format string. -/
inductive CallError where
  | refNotACTG (reference : GoString)
  | altNotACTG (alternate : GoString)
  | failedIns (position : Nat) (reference : GoString)
  deriving DecidableEq

/-- The five values returned by `getCall`; `err = none` is Go's `nil` error. -/
structure Call where
  pos : Nat
  ref : GoString
  alt : List GoString
  alleleTypes : List GoString
  err : Option CallError
  deriving DecidableEq

/-- The loop `for _, alternate := range alternateAlleles` of `getCall`, started from
the current values of `pos`, `alt` and `alleleTypes`, up to the `return` that ends
the function. -/
def getCallLoop (position : Nat) (reference ref : GoString) :
    List GoString → Nat → List GoString → List GoString → Option Call
  | [], pos, alt, alleleTypes => some ⟨pos, ref, alt, alleleTypes, none⟩
  | alternate :: rest, pos, alt, alleleTypes =>
    if !MatchString alternate then
      some ⟨pos, ref, alt, alleleTypes, some (.altNotACTG alternate)⟩
    else if reference.length > alternate.length then
      let alleleTypes := alleleTypes ++ [['D']]
      let sizeDiff : Int := (reference.length : Int) - (alternate.length : Int)
      let pos := (position + toUint64 sizeDiff) % 2 ^ 64
      getCallLoop position reference ref rest pos (alt ++ [Itoa (-sizeDiff)]) alleleTypes
    else if reference.length < alternate.length then
      let alleleTypes := alleleTypes ++ [['I']]
      match sliceFrom alternate reference.length with
      | none => none
      | some inserted =>
        let buffer : GoString := ['+'] ++ inserted
        if buffer.length == 1 then
          some ⟨pos, ref, alt, alleleTypes, some (.failedIns position reference)⟩
        else
          let pos := if pos == 0 then position else pos
          getCallLoop position reference ref rest pos (alt ++ [buffer]) alleleTypes
    else
      let alleleTypes := alleleTypes ++ [['S']]
      let pos := if pos == 0 then position else pos
      match sliceFrom alternate ((reference.length : Int) - 1) with
      | none => none
      | some last => getCallLoop position reference ref rest pos (alt ++ [last]) alleleTypes

/-- The function `getCall(position, reference, alternateAlleles)`.  The result is
`none` when the byte access `reference[len(reference)-1]` faults, which happens
before the reference is validated. -/
def getCall (position : Nat) (reference : GoString) (alternateAlleles : List GoString) :
    Option Call :=
  match index reference ((reference.length : Int) - 1) with
  | none => none
  | some b =>
    let ref := byteToString b
    if !MatchString reference then
      some ⟨0, ref, [], [], some (.refNotACTG reference)⟩
    else
      getCallLoop position reference ref alternateAlleles 0 [] []

/-! ## The record loop of `main` -/

/-- The field `GT` of a `vcfgo.SampleGenotype`: the genotype indices of one sample. -/
structure SampleGenotype where
  GT : List Int
  deriving DecidableEq

/-- The parts of a `vcfgo.Variant` that `main` reads; `Reference` and `Alternate` are
what `variant.Ref()` and `variant.Alt()` return. -/
structure Variant where
  Chromosome : GoString
  Pos : Nat
  Reference : GoString
  Alternate : List GoString
  Samples : List SampleGenotype
  deriving DecidableEq

/-- The map literal `iupac` of `main`, entry by entry. -/
def iupac : List (GoString × GoString) :=
  [ (['A', 'A'], ['A']), (['A', 'C'], ['M']), (['A', 'G'], ['R']), (['A', 'T'], ['W']),
    (['C', 'A'], ['M']), (['C', 'C'], ['C']), (['C', 'G'], ['S']), (['C', 'T'], ['Y']),
    (['G', 'A'], ['R']), (['G', 'C'], ['S']), (['G', 'G'], ['G']), (['G', 'T'], ['K']),
    (['T', 'A'], ['W']), (['T', 'C'], ['Y']), (['T', 'G'], ['K']), (['T', 'T'], ['T']),
    (['A'], ['A']), (['C'], ['C']), (['G'], ['G']), (['T'], ['T']),
    (['D'], ['D']), (['I'], ['I']), (['D', 'D'], ['D']), (['I', 'I'], ['I']) ]

/-- The expression `iupac[key]`: the value stored under `key`, and the empty string (the
zero value) when the key is absent. -/
def iupacAt (key : GoString) : GoString :=
  (iupac.lookup key).getD []

/-- A Go `map[string]int`, as the list of its entries (keys pairwise different), in
the order in which the keys were first stored. -/
abbrev GoMap := List (GoString × Int)

/-- The two-valued lookup `_, exists := m[key]`. -/
def GoMap.has (m : GoMap) (key : GoString) : Bool :=
  (m.lookup key).isSome

/-- The expression `m[key]` on a `map[string]int`, zero when the key is absent. -/
def GoMap.valueAt (m : GoMap) (key : GoString) : Int :=
  (m.lookup key).getD 0

/-- The assignment `m[key] = value`. -/
def GoMap.set : GoMap → GoString → Int → GoMap
  | [], key, value => [(key, value)]
  | (k, v) :: m, key, value =>
    if k = key then (k, value) :: m else (k, v) :: GoMap.set m key value

/-- The statement `if _, exists := seenGenos[key]; !exists { seenGenos[key] = 1 } else
{ seenGenos[key]++ }`. -/
def count (seenGenos : GoMap) (key : GoString) : GoMap :=
  if !seenGenos.has key then seenGenos.set key 1
  else seenGenos.set key (seenGenos.valueAt key + 1)

/-- The variables the loop over one sample's genotype indices reads and writes. -/
structure GenotypeState where
  gt : GoString
  delCount : Int
  insCount : Int
  seenGenos : GoMap
  deriving DecidableEq

/-- The body of the loop `for _, genotype := range sample.GT` for one genotype index;
`none` when an index expression `alleleTypes[gtIndex]` or `alt[gtIndex]` faults. -/
def genotypeBody (ref : GoString) (alt alleleTypes : List GoString) (genotype : Int)
    (s : GenotypeState) : Option GenotypeState :=
  if genotype == 0 then
    some { s with gt := s.gt ++ ref, seenGenos := count s.seenGenos ref }
  else
    let gtIndex := genotype - 1
    match index alleleTypes gtIndex, index alt gtIndex with
    | some alleleType, some allele =>
      let s :=
        if alleleType == ['D'] then { s with delCount := s.delCount + 1 }
        else if alleleType == ['I'] then { s with insCount := s.insCount + 1 }
        else { s with gt := s.gt ++ allele }
      some { s with seenGenos := count s.seenGenos allele }
    | _, _ => none

/-- The loop `for _, genotype := range sample.GT`. -/
def genotypeLoop (ref : GoString) (alt alleleTypes : List GoString) :
    List Int → GenotypeState → Option GenotypeState
  | [], s => some s
  | genotype :: rest, s =>
    match genotypeBody ref alt alleleTypes genotype s with
    | none => none
    | some s => genotypeLoop ref alt alleleTypes rest s

/-- The text written to `sampleOut` for one sample after its genotype loop, before the
fake quality. -/
def sampleToken (delCount insCount : Int) (ploidy : Int) (gt : GoString) : GoString :=
  if delCount > 0 then
    if delCount == ploidy then ['D'] else ['E']
  else if insCount > 0 then
    if insCount == ploidy then ['I'] else ['H']
  else
    iupacAt gt

/-- How a piece of `main` ends: it goes on with a value, it calls `log.Fatal` (the
process exits), or it faults at run time (the process dies with a panic). -/
inductive Outcome (α : Type) where
  | ok (value : α)
  | fatal
  | fault
  deriving DecidableEq

/-- The variables that live across the samples of a record. -/
structure SampleState where
  delCount : Int
  insCount : Int
  sampleOut : GoString
  seenGenos : GoMap
  deriving DecidableEq

/-- The body of the loop over the samples, for one sample, up to the token it writes
to `sampleOut`: the reset of `delCount`, `insCount` and `gt`, the ploidy check, the
genotype loop and the choice of the token.  The result is the token with the variables
as the genotype loop left them. -/
def sampleBody (ref : GoString) (alt alleleTypes : List GoString) (sample : SampleGenotype)
    (seenGenos : GoMap) : Outcome (GoString × GenotypeState) :=
  if sample.GT.length > 2 then .fatal
  else
    match genotypeLoop ref alt alleleTypes sample.GT ⟨[], 0, 0, seenGenos⟩ with
    | none => .fault
    | some g => .ok (sampleToken g.delCount g.insCount sample.GT.length g.gt, g)

/-- The loop `for _, sample := range variant.Samples`. -/
def sampleLoop (ref : GoString) (alt alleleTypes : List GoString) :
    List SampleGenotype → SampleState → Outcome SampleState
  | [], s => .ok s
  | sample :: rest, s =>
    match sampleBody ref alt alleleTypes sample s.seenGenos with
    | .fatal => .fatal
    | .fault => .fault
    | .ok (token, g) =>
      sampleLoop ref alt alleleTypes rest
        ⟨g.delCount, g.insCount, s.sampleOut ++ token ++ ['\t', '1', '\t'], g.seenGenos⟩

/-- The variables the loop `for geno, count := range seenGenos` reads and writes. -/
structure RangeState where
  seenRef : Int
  genoCount : Int
  altBuff : GoString
  altCountBuff : GoString
  deriving DecidableEq

/-- The loop `for geno, count := range seenGenos` over the entries in the order given;
`size` is `len(seenGenos)`.  Go leaves the order of a map range unspecified: the
embedding visits the keys in the order of their first insertion. -/
def rangeSeenGenos (ref : GoString) (size : Int) : GoMap → RangeState → RangeState
  | [], s => s
  | (geno, count) :: rest, s =>
    let seenRef := if s.seenRef == 0 && geno == ref then 1 else s.seenRef
    let altBuff := s.altBuff ++ geno
    let altCountBuff := s.altCountBuff ++ Itoa count
    let genoCount := s.genoCount + 1
    if genoCount != size then
      rangeSeenGenos ref size rest ⟨seenRef, genoCount, altBuff ++ [','], altCountBuff ++ [',']⟩
    else
      rangeSeenGenos ref size rest ⟨seenRef, genoCount, altBuff, altCountBuff⟩

/-- The `if` chain that assigns `callType`. -/
def classify (size seenRef delCount insCount : Int) : GoString :=
  if size - seenRef > 1 then "MULTIALLELIC".toList
  else if delCount > 0 then "DEL".toList
  else if insCount > 0 then "INS".toList
  else "SNP".toList

/-- The call `strings.Contains(s, substr)`. -/
def Contains (s substr : GoString) : Bool :=
  s.tails.any fun t => substr.isPrefixOf t

/-- The call `strings.TrimRight(s, "\t")`. -/
def TrimRightTab (s : GoString) : GoString :=
  s.rdropWhile fun c => c == '\t'

/-- The variables of `main` declared before the record loop whose value at the start
of an iteration can be read in that iteration: `insCount` and `delCount`.  (The byte
buffers and `gtIndex` are reset or assigned before each use.) -/
structure RunState where
  insCount : Int
  delCount : Int
  deriving DecidableEq

/-- The values written to the output for one record, field by field, with the tally
the `Alleles` and `Allele_Counts` fields were rendered from. -/
structure Row where
  Chromosome : GoString
  pos : Nat
  ref : GoString
  callType : GoString
  altBuff : GoString
  altCountBuff : GoString
  samples : GoString
  seenGenos : GoMap
  deriving DecidableEq

/-- The text `out.String()` handed to `outFh.WriteString` for a row. -/
def Row.line (r : Row) : GoString :=
  r.Chromosome ++ ['\t'] ++ FormatUint r.pos ++ ['\t'] ++ r.ref ++ ['\t'] ++ r.callType
    ++ ['\t'] ++ r.altBuff ++ ['\t'] ++ r.altCountBuff ++ ['\t'] ++ r.samples ++ ['\n']

/-- What one iteration of the record loop does. -/
inductive RecordResult where
  /-- The branch `log.Print(err); continue`: nothing is written. -/
  | skipped (err : CallError) (next : RunState)
  /-- The row is written and the loop goes on. -/
  | wrote (row : Row) (next : RunState)
  /-- The call `log.Fatal` ends the process. -/
  | fatal
  /-- A run-time fault ends the process. -/
  | fault
  deriving DecidableEq

/-- The row an iteration of the record loop writes, if it writes one. -/
def RecordResult.row? : RecordResult → Option Row
  | .wrote row _ => some row
  | _ => none

/-- The body of the record loop of `main` for the record `variant`, entered with the
run-scoped variables `st`. -/
def processRecord (st : RunState) (variant : Variant) : RecordResult :=
  let Chromosome :=
    if !Contains variant.Chromosome "chr".toList then "chr".toList ++ variant.Chromosome
    else variant.Chromosome
  match getCall variant.Pos variant.Reference variant.Alternate with
  | none => .fault
  | some call =>
    match call.err with
    | some err => .skipped err st
    | none =>
      match sampleLoop call.ref call.alt call.alleleTypes variant.Samples
          ⟨st.delCount, st.insCount, [], []⟩ with
      | .fatal => .fatal
      | .fault => .fault
      | .ok s =>
        let r := rangeSeenGenos call.ref s.seenGenos.length s.seenGenos ⟨0, 0, [], []⟩
        let callType := classify s.seenGenos.length r.seenRef s.delCount s.insCount
        .wrote ⟨Chromosome, call.pos, call.ref, callType, r.altBuff, r.altCountBuff,
            TrimRightTab s.sampleOut, s.seenGenos⟩ ⟨s.insCount, s.delCount⟩

/-- How the run ends: the reader is exhausted, `log.Fatal` was called, or the process
faulted. -/
inductive Exit where
  | finished
  | fatal
  | fault
  deriving DecidableEq

/-- The record loop of `main` over the records the reader delivers, entered with `st`:
the rows written, in order, and how the loop ends. -/
def recordLoop : List Variant → RunState → List Row × Exit
  | [], _ => ([], .finished)
  | variant :: rest, st =>
    match processRecord st variant with
    | .skipped _ next => recordLoop rest next
    | .wrote row next => let (rows, e) := recordLoop rest next; (row :: rows, e)
    | .fatal => ([], .fatal)
    | .fault => ([], .fault)

/-- The record loop as `main` enters it, with `insCount := 0` and `delCount := 0`. -/
def run (variants : List Variant) : List Row × Exit :=
  recordLoop variants ⟨0, 0⟩

/-! ## Per-alternate projections of the loop of `getCall` -/

/-- The string the loop of `getCall` appends to `alleleTypes` for a validated
alternate. -/
def alleleTypeOf (reference alternate : GoString) : GoString :=
  if reference.length > alternate.length then ['D']
  else if reference.length < alternate.length then ['I']
  else ['S']

/-- The string the loop of `getCall` appends to `alt` for a validated alternate. -/
def altOf (reference alternate : GoString) : GoString :=
  if reference.length > alternate.length then
    Itoa (-((reference.length : Int) - (alternate.length : Int)))
  else if reference.length < alternate.length then
    ['+'] ++ alternate.drop reference.length
  else
    alternate.drop (reference.length - 1)

/-- The value of `pos` after the loop of `getCall` has run over the validated
alternates given, entered with the value `pos`. -/
def posAfter (position : Nat) (reference : GoString) : List GoString → Nat → Nat
  | [], pos => pos
  | alternate :: rest, pos =>
    if reference.length > alternate.length then
      posAfter position reference rest
        ((position + toUint64 ((reference.length : Int) - (alternate.length : Int))) % 2 ^ 64)
    else
      posAfter position reference rest (if pos == 0 then position else pos)

/-! ## Genotype indices in terms of the input record -/

/-- The genotype index `i` selects an alternate of the record that is shorter than the
reference `R` (a deletion). -/
def pointsToDeletion (R : GoString) (alts : List GoString) (i : Int) : Bool :=
  match index alts (i - 1) with
  | some a => i != 0 && decide (a.length < R.length)
  | none => false

/-- The genotype index `i` selects an alternate of the record that is longer than the
reference `R` (an insertion). -/
def pointsToInsertion (R : GoString) (alts : List GoString) (i : Int) : Bool :=
  match index alts (i - 1) with
  | some a => i != 0 && decide (R.length < a.length)
  | none => false

/-- The base a genotype index selects: the last base of the reference for index 0, the
last base of alternate `i - 1` for an index `i` from 1 on. -/
def selectedBase (R : GoString) (alts : List GoString) (i : Int) : GoString :=
  if i == 0 then R.getLast?.toList
  else
    match index alts (i - 1) with
    | some a => a.getLast?.toList
    | none => []

/-- The key under which the genotype index `i` is tallied: the normalised reference
for index 0, the normalised alternate `i - 1` for an index `i` from 1 on. -/
def alleleKey (R : GoString) (alts : List GoString) (i : Int) : GoString :=
  if i == 0 then R.getLast?.toList
  else
    match index alts (i - 1) with
    | some a => altOf R a
    | none => []

/-- What the genotype index `i` adds to the buffer `gt`: nothing for a deletion or an
insertion, the selected base otherwise. -/
def gtPiece (R : GoString) (alts : List GoString) (i : Int) : GoString :=
  if pointsToDeletion R alts i || pointsToInsertion R alts i then [] else selectedBase R alts i

/-- The IUPAC table as the specification lists it: `AA→A, CC→C, GG→G, TT→T, AC/CA→M,
AG/GA→R, AT/TA→W, CG/GC→S, CT/TC→Y, GT/TG→K`, and a single base maps to itself. -/
def iupacSpec : List (GoString × GoString) :=
  [ (['A', 'A'], ['A']), (['C', 'C'], ['C']), (['G', 'G'], ['G']), (['T', 'T'], ['T']),
    (['A', 'C'], ['M']), (['C', 'A'], ['M']), (['A', 'G'], ['R']), (['G', 'A'], ['R']),
    (['A', 'T'], ['W']), (['T', 'A'], ['W']), (['C', 'G'], ['S']), (['G', 'C'], ['S']),
    (['C', 'T'], ['Y']), (['T', 'C'], ['Y']), (['G', 'T'], ['K']), (['T', 'G'], ['K']),
    (['A'], ['A']), (['C'], ['C']), (['G'], ['G']), (['T'], ['T']) ]

/-! ## The header line and the fragment name -/

/-- The loop `for index, name := range rdr.Header.SampleNames` of `main`, entered at
`index` with the text `out` written so far. -/
def headerLoop (numSamples : Int) : List GoString → Int → GoString → GoString
  | [], _, out => out
  | name :: rest, index, out =>
    let out := out ++ name
    if index - 1 < numSamples then
      headerLoop numSamples rest (index + 1) (out ++ ['\t'])
    else
      headerLoop numSamples rest (index + 1) out

/-- The first text `main` hands to `outFh.WriteString`: the header line for the sample
names `SampleNames`. -/
def header (SampleNames : List GoString) : GoString :=
  headerLoop SampleNames.length SampleNames 0
    "Fragment\tPosition\tReference\tType\tAlleles\tAllele_Counts\t".toList ++ ['\n']

/-- The value of `variant.Chromosome` after the statement
`if !strings.Contains(variant.Chromosome, "chr")` of the record loop, which is the
first field of the row. -/
def fragmentName (Chromosome : GoString) : GoString :=
  if !Contains Chromosome "chr".toList then "chr".toList ++ Chromosome else Chromosome

/-- The allele representation a genotype index selects in what `getCall` returned:
`ref` for index 0, `alt[i-1]` for an index `i` from 1 on (the empty string when there is
no such entry). -/
def callKey (call : Call) (i : Int) : GoString :=
  if i == 0 then call.ref else (index call.alt (i - 1)).getD []

/-- The genotype indices of a record, over its samples in order. -/
def genotypeSlots (v : Variant) : List Int :=
  v.Samples.flatMap fun sample => sample.GT

/-- The tokens a sample can receive according to the specification. -/
def tokenAlphabet : List GoString :=
  [['A'], ['C'], ['G'], ['T'], ['M'], ['R'], ['W'], ['S'], ['Y'], ['K'],
    ['D'], ['E'], ['I'], ['H']]

/-- The token the body of the sample loop writes for a sample of the record with
reference `R` and alternates `alts`, in terms of the record: the choice of `sampleToken`
at the counts and the buffer the genotype loop ends with. -/
def tokenOf (R : GoString) (alts : List GoString) (sample : SampleGenotype) : GoString :=
  sampleToken (sample.GT.countP (pointsToDeletion R alts) : Nat)
    (sample.GT.countP (pointsToInsertion R alts) : Nat) sample.GT.length
    (sample.GT.flatMap (gtPiece R alts))

/-! ## Lemmas on the primitives -/

theorem matchString_iff (s : GoString) :
    MatchString s = true ↔ s ≠ [] ∧ ∀ c ∈ s, isBase c = true := by
  cases s <;> simp [MatchString]

theorem isBase_toNat_lt {c : Char} (h : isBase c = true) : c.toNat < 128 := by
  simp only [isBase, Bool.or_eq_true, beq_iff_eq] at h
  rcases h with ((h | h) | h) | h <;> subst h <;> decide

theorem index_last (s : GoString) (h : s ≠ []) :
    index s ((s.length : Int) - 1) = s.getLast? := by
  have hpos : 0 < s.length := List.length_pos.mpr h
  have h0 : (0 : Int) ≤ (s.length : Int) - 1 := by omega
  have h1 : ((s.length : Int) - 1).toNat = s.length - 1 := by omega
  simp [index, h0, h1, List.getLast?_eq_getElem?]

theorem index_last_nil : index ([] : GoString) ((([] : GoString).length : Int) - 1) = none := by
  decide

theorem sliceFrom_ok (s : GoString) (n : Nat) (h : n ≤ s.length) :
    sliceFrom s (n : Int) = some (s.drop n) := by
  have : (n : Int) ≤ (s.length : Int) := by exact_mod_cast h
  simp [sliceFrom, this]

theorem sliceFrom_pred (s : GoString) (n : Nat) (h0 : 0 < n) (h : n ≤ s.length) :
    sliceFrom s ((n : Int) - 1) = some (s.drop (n - 1)) := by
  have h1 : (n : Int) - 1 = ((n - 1 : Nat) : Int) := by omega
  rw [h1]
  exact sliceFrom_ok s (n - 1) (by omega)

theorem toUint64_sub (a b : Nat) (hb : b < a) (ha : a < 2 ^ 64) :
    toUint64 ((a : Int) - (b : Int)) = a - b := by
  unfold toUint64
  have h1 : (a : Int) - (b : Int) = ((a - b : Nat) : Int) := by omega
  rw [h1]
  have h2 : (((a - b : Nat) : Int) % 2 ^ 64) = ((a - b : Nat) : Int) := by
    apply Int.emod_eq_of_lt
    · omega
    · have : a - b < 2 ^ 64 := by omega
      exact_mod_cast this
  rw [h2]
  simp

theorem Itoa_neg_sub (a b : Nat) (hb : b < a) :
    Itoa (-((a : Int) - (b : Int))) = '-' :: Nat.toDigits 10 (a - b) := by
  unfold Itoa
  have h1 : -((a : Int) - (b : Int)) < 0 := by omega
  have h2 : (-((a : Int) - (b : Int))).natAbs = a - b := by omega
  rw [if_pos h1, h2]

/-! ## The loop of `getCall` -/

theorem getCallLoop_cons_valid (position : Nat) (reference ref alternate : GoString)
    (rest : List GoString) (pos : Nat) (alt alleleTypes : List GoString)
    (hR : reference ≠ []) (hA : MatchString alternate = true) :
    getCallLoop position reference ref (alternate :: rest) pos alt alleleTypes =
      getCallLoop position reference ref rest (posAfter position reference [alternate] pos)
        (alt ++ [altOf reference alternate])
        (alleleTypes ++ [alleleTypeOf reference alternate]) := by
  have hpos : 0 < reference.length := List.length_pos.mpr hR
  by_cases hD : reference.length > alternate.length
  · simp [getCallLoop, hA, hD, posAfter, altOf, alleleTypeOf]
  · by_cases hI : reference.length < alternate.length
    · have hs := sliceFrom_ok alternate reference.length (le_of_lt hI)
      have hne : alternate.length - reference.length ≠ 0 := by omega
      simp [getCallLoop, hA, hD, hI, posAfter, altOf, alleleTypeOf, hs, hne]
    · have hle : reference.length ≤ alternate.length := by omega
      have hs := sliceFrom_pred alternate reference.length hpos hle
      simp [getCallLoop, hA, hD, hI, posAfter, altOf, alleleTypeOf, hs]

theorem posAfter_cons (position : Nat) (reference alternate : GoString)
    (rest : List GoString) (pos : Nat) :
    posAfter position reference (alternate :: rest) pos =
      posAfter position reference rest (posAfter position reference [alternate] pos) := by
  by_cases hD : reference.length > alternate.length <;> simp [posAfter, hD]

theorem getCallLoop_valid (position : Nat) (reference ref : GoString) (hR : reference ≠ [])
    (alts : List GoString) (hA : ∀ a ∈ alts, MatchString a = true)
    (pos : Nat) (alt alleleTypes : List GoString) :
    getCallLoop position reference ref alts pos alt alleleTypes =
      some ⟨posAfter position reference alts pos, ref, alt ++ alts.map (altOf reference),
        alleleTypes ++ alts.map (alleleTypeOf reference), none⟩ := by
  induction alts generalizing pos alt alleleTypes with
  | nil => simp [getCallLoop, posAfter]
  | cons a rest ih =>
    have ha : MatchString a = true := hA a (List.mem_cons_self a rest)
    have hrest : ∀ b ∈ rest, MatchString b = true := fun b hb => hA b (List.mem_cons_of_mem a hb)
    rw [getCallLoop_cons_valid position reference ref a rest pos alt alleleTypes hR ha,
      ih hrest, posAfter_cons position reference a rest pos]
    simp

theorem getCallLoop_invalid (position : Nat) (reference ref : GoString) (hR : reference ≠ [])
    (alts : List GoString) (hA : ∃ a ∈ alts, MatchString a = false)
    (pos : Nat) (alt alleleTypes : List GoString) :
    ∃ c a, getCallLoop position reference ref alts pos alt alleleTypes = some c ∧
      a ∈ alts ∧ MatchString a = false ∧ c.err = some (.altNotACTG a) := by
  induction alts generalizing pos alt alleleTypes with
  | nil => simp at hA
  | cons a rest ih =>
    by_cases ha : MatchString a = true
    · have hrest : ∃ b ∈ rest, MatchString b = false := by
        obtain ⟨b, hb, hbm⟩ := hA
        rcases List.mem_cons.mp hb with h | h
        · subst h; rw [ha] at hbm; cases hbm
        · exact ⟨b, h, hbm⟩
      rw [getCallLoop_cons_valid position reference ref a rest pos alt alleleTypes hR ha]
      obtain ⟨c, b, hc, hb, hbm, he⟩ := ih hrest _ _ _
      exact ⟨c, b, hc, List.mem_cons_of_mem a hb, hbm, he⟩
    · have ha' : MatchString a = false := by simpa using ha
      exact ⟨⟨pos, ref, alt, alleleTypes, some (.altNotACTG a)⟩, a,
        by simp [getCallLoop, ha'], List.mem_cons_self a rest, ha', rfl⟩

/-! ## The function `getCall` -/

theorem getCall_nil_ref (position : Nat) (alts : List GoString) :
    getCall position [] alts = none := by
  rfl

theorem getCall_of_ne_nil (position : Nat) (reference : GoString) (alts : List GoString)
    (hR : reference ≠ []) :
    ∃ b, reference.getLast? = some b ∧
      getCall position reference alts =
        if !MatchString reference then
          some ⟨0, byteToString b, [], [], some (.refNotACTG reference)⟩
        else getCallLoop position reference (byteToString b) alts 0 [] [] := by
  refine ⟨reference.getLast hR, List.getLast?_eq_getLast reference hR, ?_⟩
  simp [getCall, index_last reference hR, List.getLast?_eq_getLast reference hR]

theorem getCall_valid_ref (position : Nat) (reference : GoString) (alts : List GoString)
    (hR : MatchString reference = true) :
    getCall position reference alts =
      getCallLoop position reference reference.getLast?.toList alts 0 [] [] := by
  have hne : reference ≠ [] := ((matchString_iff reference).mp hR).1
  obtain ⟨b, hb, hcall⟩ := getCall_of_ne_nil position reference alts hne
  have hmem : b ∈ reference := by
    rw [List.getLast?_eq_getLast reference hne] at hb
    cases hb
    exact List.getLast_mem hne
  have hlt : b.toNat < 128 := isBase_toNat_lt (((matchString_iff reference).mp hR).2 b hmem)
  rw [hcall, hb]
  simp [hR, byteToString, hlt]

theorem getCall_valid (position : Nat) (reference : GoString) (alts : List GoString)
    (hR : MatchString reference = true) (hA : ∀ a ∈ alts, MatchString a = true) :
    getCall position reference alts =
      some ⟨posAfter position reference alts 0, reference.getLast?.toList,
        alts.map (altOf reference), alts.map (alleleTypeOf reference), none⟩ := by
  have hne : reference ≠ [] := ((matchString_iff reference).mp hR).1
  rw [getCall_valid_ref position reference alts hR,
    getCallLoop_valid position reference _ hne alts hA]
  simp

theorem drop_length_pred (s : GoString) (h : s ≠ []) :
    s.drop (s.length - 1) = s.getLast?.toList := by
  induction s with
  | nil => exact absurd rfl h
  | cons a t ih =>
    cases t with
    | nil => rfl
    | cons b u =>
      have := ih (List.cons_ne_nil b u)
      simpa [List.getLast?_cons_cons] using this

/-! ## Single-alternate normalisation -/

/-- Claim C1.  For a valid reference `R` and a valid alternate `A` shorter than `R`,
with `p + len(R) < 2^64`, `getCall p R [A]` returns no error, the allele type `D`, the
alternate `-` followed by the decimal digits of `len(R) - len(A)`, and the position
`p + (len(R) - len(A))`. -/
theorem getCall_deletion (p : Nat) (R A : GoString)
    (hR : MatchString R = true) (hA : MatchString A = true)
    (hlen : R.length > A.length) (hp : p + R.length < 2 ^ 64) :
    getCall p R [A] =
      some ⟨p + (R.length - A.length), R.getLast?.toList,
        ['-' :: (Nat.repr (R.length - A.length)).toList], [['D']], none⟩ := by
  have hA' : ∀ a ∈ [A], MatchString a = true := by simpa using hA
  rw [getCall_valid p R [A] hR hA']
  have h1 : toUint64 ((R.length : Int) - (A.length : Int)) = R.length - A.length :=
    toUint64_sub R.length A.length hlen (by omega)
  have h2 : (p + (R.length - A.length)) % 2 ^ 64 = p + (R.length - A.length) :=
    Nat.mod_eq_of_lt (by omega)
  have h3 : altOf R A = '-' :: (Nat.repr (R.length - A.length)).toList := by
    simp only [altOf, if_pos hlen]
    exact Itoa_neg_sub R.length A.length hlen
  have h4 : alleleTypeOf R A = ['D'] := by simp [alleleTypeOf, hlen]
  simp only [posAfter, if_pos hlen, h1, h2, List.map_cons, List.map_nil, h3, h4]

/-- Witness of C1: reference `ACGT`, alternate `A` at position 100 give `-3` at
position 103. -/
theorem getCall_deletion_witness :
    getCall 100 ['A', 'C', 'G', 'T'] [['A']] =
      some ⟨103, ['T'], [['-', '3']], [['D']], none⟩ :=
  getCall_deletion 100 ['A', 'C', 'G', 'T'] ['A'] (by decide) (by decide) (by decide)
    (by decide)

/-- Claim C2.  For a valid reference `R` and a valid alternate `A` longer than `R`,
`getCall p R [A]` returns no error, the allele type `I`, the alternate `+` followed by
what is left of `A` after its first `len(R)` bytes, and the position `p`. -/
theorem getCall_insertion (p : Nat) (R A : GoString)
    (hR : MatchString R = true) (hA : MatchString A = true)
    (hlen : R.length < A.length) :
    getCall p R [A] =
      some ⟨p, R.getLast?.toList, ['+' :: A.drop R.length], [['I']], none⟩ := by
  have hA' : ∀ a ∈ [A], MatchString a = true := by simpa using hA
  have hD : ¬ R.length > A.length := by omega
  rw [getCall_valid p R [A] hR hA']
  simp [posAfter, altOf, alleleTypeOf, hD, hlen]

/-- Witness of C2: reference `A`, alternate `ACG` give `+CG` at the input position. -/
theorem getCall_insertion_witness :
    getCall 100 ['A'] [['A', 'C', 'G']] =
      some ⟨100, ['A'], [['+', 'C', 'G']], [['I']], none⟩ :=
  getCall_insertion 100 ['A'] ['A', 'C', 'G'] (by decide) (by decide) (by decide)

/-- Claim C3.  For a valid reference `R` and a valid alternate `A` of the same length,
`getCall p R [A]` returns no error, the allele type `S`, the alternate made of the last
base of `A` alone, and the position `p`. -/
theorem getCall_substitution (p : Nat) (R A : GoString)
    (hR : MatchString R = true) (hA : MatchString A = true)
    (hlen : R.length = A.length) :
    getCall p R [A] =
      some ⟨p, R.getLast?.toList, [A.getLast?.toList], [['S']], none⟩ ∧
      A.getLast?.toList.length = 1 := by
  have hA' : ∀ a ∈ [A], MatchString a = true := by simpa using hA
  have hne : A ≠ [] := ((matchString_iff A).mp hA).1
  have hD : ¬ R.length > A.length := by omega
  have hI : ¬ R.length < A.length := by omega
  have h3 : altOf R A = A.getLast?.toList := by
    unfold altOf
    rw [if_neg hD, if_neg hI, hlen]
    exact drop_length_pred A hne
  constructor
  · rw [getCall_valid p R [A] hR hA']
    simp [posAfter, h3, alleleTypeOf, hD, hI]
  · rw [List.getLast?_eq_getLast A hne]
    rfl

/-- Witness of C3: reference `AC`, alternate `GT` give the substitution `T` at the
input position. -/
theorem getCall_substitution_witness :
    getCall 100 ['A', 'C'] [['G', 'T']] = some ⟨100, ['C'], [['T']], [['S']], none⟩ ∧
      (['G', 'T'] : GoString).getLast?.toList.length = 1 :=
  getCall_substitution 100 ['A', 'C'] ['G', 'T'] (by decide) (by decide) (by decide)

/-! ## Validation -/

theorem getCall_error_iff (p : Nat) (R : GoString) (alts : List GoString) (hR : R ≠ []) :
    ∃ c, getCall p R alts = some c ∧
      (c.err = none ↔ (MatchString R = true ∧ ∀ a ∈ alts, MatchString a = true)) := by
  by_cases hm : MatchString R = true
  · by_cases ha : ∀ a ∈ alts, MatchString a = true
    · exact ⟨_, getCall_valid p R alts hm ha, by simpa [hm] using ha⟩
    · have ha' : ∃ a ∈ alts, MatchString a = false := by
        by_contra hcon
        apply ha
        intro a hmem
        by_contra hna
        exact hcon ⟨a, hmem, by simpa using hna⟩
      obtain ⟨c, a, hc, hmem, hbad, he⟩ := getCallLoop_invalid p R R.getLast?.toList hR alts ha' 0 [] []
      refine ⟨c, by rw [getCall_valid_ref p R alts hm]; exact hc, ?_⟩
      rw [he]
      constructor
      · intro h; cases h
      · intro h; exact absurd h.2 ha
  · obtain ⟨b, _, hcall⟩ := getCall_of_ne_nil p R alts hR
    have hm' : MatchString R = false := by simpa using hm
    refine ⟨⟨0, byteToString b, [], [], some (.refNotACTG R)⟩, by rw [hcall]; simp [hm'], ?_⟩
    simp [hm']

theorem getCall_ok_inv (p : Nat) (R : GoString) (alts : List GoString) (c : Call)
    (h : getCall p R alts = some c) (he : c.err = none) :
    MatchString R = true ∧ ∀ a ∈ alts, MatchString a = true := by
  have hR : R ≠ [] := by
    intro hnil
    subst hnil
    rw [getCall_nil_ref] at h
    cases h
  obtain ⟨c', hc', hiff⟩ := getCall_error_iff p R alts hR
  rw [h] at hc'
  cases hc'
  exact hiff.mp he

/-- Claim C4, at the input on which the code departs from it.  The empty reference does
not match the regular expression, yet `getCall` returns nothing for it, whatever the
position and the alternates: the byte access `reference[len(reference)-1]` faults
before the reference is validated. -/
theorem getCall_empty_reference_faults (p : Nat) (alts : List GoString) :
    MatchString [] = false ∧ getCall p [] alts = none :=
  ⟨rfl, getCall_nil_ref p alts⟩

/-! ## Parallel output lists -/

/-- Claim C5.  When `getCall p R alts` returns without an error, the lists `alt` and
`alleleTypes` it returns have one entry per input alternate, in input order: the type
of entry `i` is `D`, `I` or `S` according to the lengths of `R` and `alts[i]`, and the
alternate of entry `i` is computed from `R` and `alts[i]` alone. -/
theorem getCall_parallel (p : Nat) (R : GoString) (alts : List GoString) (c : Call)
    (h : getCall p R alts = some c) (he : c.err = none) :
    c.alt.length = alts.length ∧ c.alleleTypes.length = alts.length ∧
      c.alleleTypes = alts.map (fun a =>
        if R.length > a.length then ['D'] else if R.length < a.length then ['I'] else ['S']) ∧
      c.alt = alts.map (altOf R) := by
  obtain ⟨hR, hA⟩ := getCall_ok_inv p R alts c h he
  rw [getCall_valid p R alts hR hA] at h
  cases h
  refine ⟨by simp, by simp, ?_, rfl⟩
  rfl

/-- Witness of C5: a deletion, an insertion and a substitution in one record. -/
theorem getCall_parallel_witness :
    ([['-', '1'], ['+', 'G', 'T'], ['T']] : List GoString).length = 3 ∧
      ([['D'], ['I'], ['S']] : List GoString).length = 3 ∧
      ([['D'], ['I'], ['S']] : List GoString) =
        [['A'], ['A', 'C', 'G', 'T'], ['G', 'T']].map (fun a =>
          if (['A', 'C'] : GoString).length > a.length then ['D']
          else if (['A', 'C'] : GoString).length < a.length then ['I'] else ['S']) ∧
      ([['-', '1'], ['+', 'G', 'T'], ['T']] : List GoString) =
        [['A'], ['A', 'C', 'G', 'T'], ['G', 'T']].map (altOf ['A', 'C']) :=
  getCall_parallel 100 ['A', 'C'] [['A'], ['A', 'C', 'G', 'T'], ['G', 'T']]
    ⟨101, ['C'], [['-', '1'], ['+', 'G', 'T'], ['T']], [['D'], ['I'], ['S']], none⟩
    (by decide) rfl

/-! ## The genotype loop on an accepted record -/

theorem index_map {α β : Type} (f : α → β) (l : List α) (i : Int) :
    index (l.map f) i = (index l i).map f := by
  unfold index
  split <;> simp

theorem index_of_range {α : Type} (l : List α) (i : Int) (h1 : 1 ≤ i)
    (h2 : i ≤ (l.length : Int)) : ∃ a, a ∈ l ∧ index l (i - 1) = some a := by
  have h0 : (0 : Int) ≤ i - 1 := by omega
  have hlt : (i - 1).toNat < l.length := by omega
  refine ⟨l[(i - 1).toNat], List.getElem_mem hlt, ?_⟩
  simp [index, h0, List.getElem?_eq_getElem hlt]

theorem altOf_of_length_eq (R a : GoString) (ha : a ≠ []) (h : R.length = a.length) :
    altOf R a = a.getLast?.toList := by
  unfold altOf
  rw [if_neg (by omega), if_neg (by omega), h]
  exact drop_length_pred a ha

theorem genotypeBody_accepted (R : GoString) (alts : List GoString)
    (hA : ∀ a ∈ alts, MatchString a = true) (i : Int)
    (hi : 0 ≤ i ∧ i ≤ (alts.length : Int)) (s : GenotypeState) :
    genotypeBody R.getLast?.toList (alts.map (altOf R)) (alts.map (alleleTypeOf R)) i s =
      some ⟨s.gt ++ gtPiece R alts i,
        s.delCount + (if pointsToDeletion R alts i then 1 else 0),
        s.insCount + (if pointsToInsertion R alts i then 1 else 0),
        count s.seenGenos (alleleKey R alts i)⟩ := by
  by_cases h0 : i = 0
  · subst h0
    have hd : pointsToDeletion R alts 0 = false := by
      unfold pointsToDeletion; split <;> simp
    have hn : pointsToInsertion R alts 0 = false := by
      unfold pointsToInsertion; split <;> simp
    simp [genotypeBody, gtPiece, hd, hn, selectedBase, alleleKey]
  · obtain ⟨a, hmem, hidx⟩ := index_of_range alts i (by omega) hi.2
    have hne : a ≠ [] := ((matchString_iff a).mp (hA a hmem)).1
    have hb : (i == 0) = false := by simpa using h0
    have hb' : (i != 0) = true := by simpa using h0
    by_cases hD : R.length > a.length
    · have hI : ¬ R.length < a.length := by omega
      simp [genotypeBody, hb, hb', index_map, hidx, gtPiece, pointsToDeletion, pointsToInsertion,
        alleleKey, alleleTypeOf, hD, hI]
    · by_cases hI : R.length < a.length
      · have hD' : ¬ a.length < R.length := by omega
        simp [genotypeBody, hb, hb', index_map, hidx, gtPiece, pointsToDeletion,
          pointsToInsertion, alleleKey, alleleTypeOf, hD', hI]
      · have hD' : ¬ a.length < R.length := by omega
        have heq : altOf R a = a.getLast?.toList := altOf_of_length_eq R a hne (by omega)
        simp [genotypeBody, hb, hb', index_map, hidx, gtPiece, pointsToDeletion,
          pointsToInsertion, alleleKey, selectedBase, alleleTypeOf, hD', hI, heq]

theorem genotypeLoop_accepted (R : GoString) (alts : List GoString)
    (hA : ∀ a ∈ alts, MatchString a = true) (GT : List Int)
    (hGT : ∀ i ∈ GT, 0 ≤ i ∧ i ≤ (alts.length : Int)) (s : GenotypeState) :
    genotypeLoop R.getLast?.toList (alts.map (altOf R)) (alts.map (alleleTypeOf R)) GT s =
      some ⟨s.gt ++ GT.flatMap (gtPiece R alts),
        s.delCount + (GT.countP (pointsToDeletion R alts) : Nat),
        s.insCount + (GT.countP (pointsToInsertion R alts) : Nat),
        GT.foldl (fun m i => count m (alleleKey R alts i)) s.seenGenos⟩ := by
  induction GT generalizing s with
  | nil => simp [genotypeLoop]
  | cons i rest ih =>
    have hi := hGT i (List.mem_cons_self i rest)
    have hrest : ∀ j ∈ rest, 0 ≤ j ∧ j ≤ (alts.length : Int) :=
      fun j hj => hGT j (List.mem_cons_of_mem i hj)
    simp only [genotypeLoop, genotypeBody_accepted R alts hA i hi s, ih hrest,
      List.flatMap_cons, List.countP_cons, List.foldl_cons, List.append_assoc]
    congr 2
    · split
      · push_cast; omega
      · simp
    · split
      · push_cast; omega
      · simp

theorem sampleBody_accepted (R : GoString) (alts : List GoString)
    (hA : ∀ a ∈ alts, MatchString a = true) (sample : SampleGenotype)
    (hlen : sample.GT.length ≤ 2)
    (hGT : ∀ i ∈ sample.GT, 0 ≤ i ∧ i ≤ (alts.length : Int)) (seen : GoMap) :
    sampleBody R.getLast?.toList (alts.map (altOf R)) (alts.map (alleleTypeOf R)) sample seen =
      .ok (sampleToken (sample.GT.countP (pointsToDeletion R alts) : Nat)
            (sample.GT.countP (pointsToInsertion R alts) : Nat) sample.GT.length
            (sample.GT.flatMap (gtPiece R alts)),
          ⟨sample.GT.flatMap (gtPiece R alts),
            (sample.GT.countP (pointsToDeletion R alts) : Nat),
            (sample.GT.countP (pointsToInsertion R alts) : Nat),
            sample.GT.foldl (fun m i => count m (alleleKey R alts i)) seen⟩) := by
  have hnot : ¬ sample.GT.length > 2 := by omega
  simp [sampleBody, hnot, genotypeLoop_accepted R alts hA sample.GT hGT]

theorem countP_cast_pos (f : Int → Bool) (GT : List Int) :
    ((GT.countP f : Nat) : Int) > 0 ↔ GT.any f = true := by
  rw [List.any_eq_true]
  have := @List.countP_pos_iff _ GT f
  constructor
  · intro h
    exact this.mp (by omega)
  · intro h
    have := this.mpr h
    omega

theorem countP_cast_eq_length (f : Int → Bool) (GT : List Int) :
    (((GT.countP f : Nat) : Int) == (GT.length : Int)) = GT.all f := by
  have h := @List.countP_eq_length _ GT f
  by_cases hall : GT.all f = true
  · rw [hall]
    have : GT.countP f = GT.length := h.mpr (by simpa using hall)
    simp [this]
  · have hall' : GT.all f = false := by simpa using hall
    rw [hall']
    have : GT.countP f ≠ GT.length := by
      intro hc
      apply hall
      simpa using h.mp hc
    simpa using this

theorem sampleToken_deletion (f g : Int → Bool) (GT : List Int) (gt : GoString)
    (h : GT.any f = true) :
    sampleToken (GT.countP f : Nat) (GT.countP g : Nat) GT.length gt =
      if GT.all f then ['D'] else ['E'] := by
  unfold sampleToken
  rw [if_pos ((countP_cast_pos f GT).mpr h), countP_cast_eq_length]

theorem sampleToken_insertion (f g : Int → Bool) (GT : List Int) (gt : GoString)
    (hf : GT.any f = false) (h : GT.any g = true) :
    sampleToken (GT.countP f : Nat) (GT.countP g : Nat) GT.length gt =
      if GT.all g then ['I'] else ['H'] := by
  unfold sampleToken
  have hnf : ¬ ((GT.countP f : Nat) : Int) > 0 := by
    rw [countP_cast_pos, hf]; simp
  rw [if_neg hnf, if_pos ((countP_cast_pos g GT).mpr h), countP_cast_eq_length]

theorem sampleToken_neither (f g : Int → Bool) (GT : List Int) (gt : GoString)
    (hf : GT.any f = false) (hg : GT.any g = false) :
    sampleToken (GT.countP f : Nat) (GT.countP g : Nat) GT.length gt = iupacAt gt := by
  unfold sampleToken
  have hnf : ¬ ((GT.countP f : Nat) : Int) > 0 := by
    rw [countP_cast_pos, hf]; simp
  have hng : ¬ ((GT.countP g : Nat) : Int) > 0 := by
    rw [countP_cast_pos, hg]; simp
  rw [if_neg hnf, if_neg hng]

/-! ## Sample tokens -/

/-- Claim C6.  On a record `getCall` accepts, for a sample with one or two genotype
indices in `0..len(alts)`: when some index selects a deletion, the token is `D` if each
index of the sample selects a deletion and `E` otherwise; when no index selects a
deletion and some index selects an insertion, the token is `I` if each index selects an
insertion and `H` otherwise. -/
theorem sample_indel_token (p : Nat) (R : GoString) (alts : List GoString) (call : Call)
    (sample : SampleGenotype) (seen : GoMap)
    (hcall : getCall p R alts = some call) (herr : call.err = none)
    (hlen : sample.GT.length = 1 ∨ sample.GT.length = 2)
    (hGT : ∀ i ∈ sample.GT, 0 ≤ i ∧ i ≤ (alts.length : Int)) :
    ∃ token g, sampleBody call.ref call.alt call.alleleTypes sample seen = .ok (token, g) ∧
      (sample.GT.any (pointsToDeletion R alts) = true →
        token = if sample.GT.all (pointsToDeletion R alts) then ['D'] else ['E']) ∧
      (sample.GT.any (pointsToDeletion R alts) = false →
        sample.GT.any (pointsToInsertion R alts) = true →
        token = if sample.GT.all (pointsToInsertion R alts) then ['I'] else ['H']) := by
  obtain ⟨hR, hA⟩ := getCall_ok_inv p R alts call hcall herr
  rw [getCall_valid p R alts hR hA] at hcall
  cases hcall
  refine ⟨_, _, sampleBody_accepted R alts hA sample (by omega) hGT seen, ?_, ?_⟩
  · intro h
    exact sampleToken_deletion _ _ sample.GT _ h
  · intro hf h
    exact sampleToken_insertion _ _ sample.GT _ hf h

/-- Witness of C6: reference `AC` with the alternates `A` (deletion), `ACG` (insertion)
and `AG` (substitution); the sample `[1, 2]` carries a deletion and an insertion, and
its token is `E`. -/
theorem sample_indel_token_witness :
    (∃ token g, sampleBody ['C'] [['-', '1'], ['+', 'G'], ['G']] [['D'], ['I'], ['S']]
        ⟨[1, 2]⟩ [] = .ok (token, g) ∧
      (([1, 2] : List Int).any
          (pointsToDeletion ['A', 'C'] [['A'], ['A', 'C', 'G'], ['A', 'G']]) = true →
        token = if ([1, 2] : List Int).all
          (pointsToDeletion ['A', 'C'] [['A'], ['A', 'C', 'G'], ['A', 'G']])
          then ['D'] else ['E']) ∧
      (([1, 2] : List Int).any
          (pointsToDeletion ['A', 'C'] [['A'], ['A', 'C', 'G'], ['A', 'G']]) = false →
        ([1, 2] : List Int).any
          (pointsToInsertion ['A', 'C'] [['A'], ['A', 'C', 'G'], ['A', 'G']]) = true →
        token = if ([1, 2] : List Int).all
          (pointsToInsertion ['A', 'C'] [['A'], ['A', 'C', 'G'], ['A', 'G']])
          then ['I'] else ['H'])) ∧
      sampleBody ['C'] [['-', '1'], ['+', 'G'], ['G']] [['D'], ['I'], ['S']] ⟨[1, 2]⟩ [] =
        .ok (['E'], ⟨[], 1, 1, [(['-', '1'], 1), (['+', 'G'], 1)]⟩) :=
  ⟨sample_indel_token 100 ['A', 'C'] [['A'], ['A', 'C', 'G'], ['A', 'G']]
    ⟨101, ['C'], [['-', '1'], ['+', 'G'], ['G']], [['D'], ['I'], ['S']], none⟩ ⟨[1, 2]⟩ []
    (by decide) rfl (by decide) (by decide), by decide⟩

theorem isBase_cases {c : Char} (h : isBase c = true) :
    c = 'A' ∨ c = 'C' ∨ c = 'T' ∨ c = 'G' := by
  simp only [isBase, Bool.or_eq_true, beq_iff_eq] at h
  tauto

theorem iupac_single (c : Char) (h : isBase c = true) :
    iupacSpec.lookup [c] = some (iupacAt [c]) := by
  rcases isBase_cases h with h | h | h | h <;> subst h <;> decide

theorem iupac_pair (c d : Char) (hc : isBase c = true) (hd : isBase d = true) :
    iupacSpec.lookup [c, d] = some (iupacAt [c, d]) := by
  rcases isBase_cases hc with h | h | h | h <;> subst h <;>
    rcases isBase_cases hd with h | h | h | h <;> subst h <;> decide

theorem getLast?_toList_base (s : GoString) (h : MatchString s = true) :
    ∃ c, isBase c = true ∧ s.getLast?.toList = [c] := by
  obtain ⟨hne, hall⟩ := (matchString_iff s).mp h
  refine ⟨s.getLast hne, hall _ (List.getLast_mem hne), ?_⟩
  rw [List.getLast?_eq_getLast s hne]
  rfl

theorem selectedBase_base (R : GoString) (alts : List GoString)
    (hR : MatchString R = true) (hA : ∀ a ∈ alts, MatchString a = true) (i : Int)
    (hi : 0 ≤ i ∧ i ≤ (alts.length : Int)) :
    ∃ c, isBase c = true ∧ selectedBase R alts i = [c] := by
  by_cases h0 : i = 0
  · subst h0
    simpa [selectedBase] using getLast?_toList_base R hR
  · obtain ⟨a, hmem, hidx⟩ := index_of_range alts i (by omega) hi.2
    have hb : (i == 0) = false := by simpa using h0
    simpa [selectedBase, hb, hidx] using getLast?_toList_base a (hA a hmem)

theorem gtPiece_of_neither (R : GoString) (alts : List GoString) (i : Int)
    (h : pointsToDeletion R alts i = false ∧ pointsToInsertion R alts i = false) :
    gtPiece R alts i = selectedBase R alts i := by
  simp [gtPiece, h.1, h.2]

theorem flatMap_gtPiece_of_neither (R : GoString) (alts : List GoString) (GT : List Int)
    (h : ∀ i ∈ GT, pointsToDeletion R alts i = false ∧ pointsToInsertion R alts i = false) :
    GT.flatMap (gtPiece R alts) = GT.flatMap (selectedBase R alts) := by
  induction GT with
  | nil => rfl
  | cons i rest ih =>
    rw [List.flatMap_cons, List.flatMap_cons,
      gtPiece_of_neither R alts i (h i (List.mem_cons_self i rest)),
      ih (fun j hj => h j (List.mem_cons_of_mem i hj))]

/-- Claim C7.  On a record `getCall` accepts, for a sample with one or two genotype
indices in `0..len(alts)` none of which selects a deletion or an insertion, the token is
the entry of the specification's IUPAC table for the bases the indices select, in
order: the last base of the reference for index 0 and the last base of the alternate
otherwise. -/
theorem sample_iupac_token (p : Nat) (R : GoString) (alts : List GoString) (call : Call)
    (sample : SampleGenotype) (seen : GoMap)
    (hcall : getCall p R alts = some call) (herr : call.err = none)
    (hlen : sample.GT.length = 1 ∨ sample.GT.length = 2)
    (hGT : ∀ i ∈ sample.GT, 0 ≤ i ∧ i ≤ (alts.length : Int))
    (hnone : ∀ i ∈ sample.GT,
      pointsToDeletion R alts i = false ∧ pointsToInsertion R alts i = false) :
    ∃ token g, sampleBody call.ref call.alt call.alleleTypes sample seen = .ok (token, g) ∧
      iupacSpec.lookup (sample.GT.flatMap (selectedBase R alts)) = some token := by
  obtain ⟨hR, hA⟩ := getCall_ok_inv p R alts call hcall herr
  rw [getCall_valid p R alts hR hA] at hcall
  cases hcall
  refine ⟨_, _, sampleBody_accepted R alts hA sample (by omega) hGT seen, ?_⟩
  have hd : sample.GT.any (pointsToDeletion R alts) = false := by
    rw [List.any_eq_false]
    intro i hi
    simp [(hnone i hi).1]
  have hn : sample.GT.any (pointsToInsertion R alts) = false := by
    rw [List.any_eq_false]
    intro i hi
    simp [(hnone i hi).2]
  rw [sampleToken_neither _ _ sample.GT _ hd hn,
    flatMap_gtPiece_of_neither R alts sample.GT hnone]
  obtain ⟨GT⟩ := sample
  simp only at hlen hGT ⊢
  match GT, hlen, hGT with
  | [i], _, hGT =>
    obtain ⟨c, hc, hsel⟩ := selectedBase_base R alts hR hA i (hGT i (by simp))
    simp only [List.flatMap_cons, List.flatMap_nil, List.append_nil, hsel]
    exact iupac_single c hc
  | [i, j], _, hGT =>
    obtain ⟨c, hc, hsel⟩ := selectedBase_base R alts hR hA i (hGT i (by simp))
    obtain ⟨d, hd, hsel'⟩ := selectedBase_base R alts hR hA j (hGT j (by simp))
    simp only [List.flatMap_cons, List.flatMap_nil, List.append_nil, hsel, hsel']
    exact iupac_pair c d hc hd
  | [], h, _ => simp at h
  | _ :: _ :: _ :: _, h, _ => simp at h

/-- Witness of C7: reference `A` and alternate `C`; the genotype `[0, 1]` gives `M` and
the genotype `[0, 0]` gives `A`. -/
theorem sample_iupac_token_witness :
    (∃ token g, sampleBody ['A'] [['C']] [['S']] ⟨[0, 1]⟩ [] = .ok (token, g) ∧
      iupacSpec.lookup (([0, 1] : List Int).flatMap (selectedBase ['A'] [['C']])) =
        some token) ∧
      sampleBody ['A'] [['C']] [['S']] ⟨[0, 1]⟩ [] =
        .ok (['M'], ⟨['A', 'C'], 0, 0, [(['A'], 1), (['C'], 1)]⟩) ∧
      sampleBody ['A'] [['C']] [['S']] ⟨[0, 0]⟩ [] =
        .ok (['A'], ⟨['A', 'A'], 0, 0, [(['A'], 2)]⟩) :=
  ⟨sample_iupac_token 100 ['A'] [['C']] ⟨100, ['A'], [['C']], [['S']], none⟩ ⟨[0, 1]⟩ []
    (by decide) rfl (by decide) (by decide) (by decide), by decide, by decide⟩

/-! ## The call type of a record -/

/-- Claim C8, at an input on which the code departs from it.  Reference `ACGT`,
alternate `A`, samples `1/1` and `0/0`: index 1 selects a deletion and the tally holds
one key besides the reference, yet the call type is `SNP`, because `delCount` holds what
the last sample left in it.  With the same two samples in the other order the call type
is `DEL`. -/
theorem callType_reads_last_sample :
    (processRecord ⟨0, 0⟩
        ⟨['1'], 100, ['A', 'C', 'G', 'T'], [['A']], [⟨[1, 1]⟩, ⟨[0, 0]⟩]⟩).row?.map
        (fun r => (r.callType, (r.seenGenos.filter (fun e => e.1 != r.ref)).length)) =
      some ("SNP".toList, 1) ∧
    (processRecord ⟨0, 0⟩
        ⟨['1'], 100, ['A', 'C', 'G', 'T'], [['A']], [⟨[0, 0]⟩, ⟨[1, 1]⟩]⟩).row?.map
        (fun r => (r.callType, (r.seenGenos.filter (fun e => e.1 != r.ref)).length)) =
      some ("DEL".toList, 1) ∧
    pointsToDeletion ['A', 'C', 'G', 'T'] [['A']] 1 = true := by
  decide

/-! ### Keys of the tally -/

theorem mem_keys_set (m : GoMap) (key : GoString) (value : Int) (k : GoString) :
    k ∈ (m.set key value).map Prod.fst ↔ k ∈ m.map Prod.fst ∨ k = key := by
  induction m with
  | nil => simp [GoMap.set]
  | cons e m ih =>
    obtain ⟨k', v'⟩ := e
    by_cases h : k' = key
    · subst h
      simp only [GoMap.set, if_true, List.map_cons, List.mem_cons]
      tauto
    · simp only [GoMap.set, if_neg h, List.map_cons, List.mem_cons, ih]
      tauto

theorem mem_keys_count (m : GoMap) (key k : GoString) :
    k ∈ (count m key).map Prod.fst ↔ k ∈ m.map Prod.fst ∨ k = key := by
  unfold count
  split <;> exact mem_keys_set m key _ k

theorem mem_keys_foldl_count (f : Int → GoString) (GT : List Int) (m : GoMap) (k : GoString) :
    k ∈ (GT.foldl (fun m i => count m (f i)) m).map Prod.fst ↔
      k ∈ m.map Prod.fst ∨ ∃ i ∈ GT, k = f i := by
  induction GT generalizing m with
  | nil => simp
  | cons i rest ih =>
    rw [List.foldl_cons, ih, mem_keys_count]
    simp only [List.mem_cons, exists_eq_or_imp]
    tauto

/-! ### The sample loop on an accepted record -/

theorem sampleLoop_accepted (R : GoString) (alts : List GoString)
    (hA : ∀ a ∈ alts, MatchString a = true) (samples : List SampleGenotype)
    (hlen : ∀ s ∈ samples, s.GT.length ≤ 2)
    (hGT : ∀ s ∈ samples, ∀ i ∈ s.GT, 0 ≤ i ∧ i ≤ (alts.length : Int)) (st : SampleState) :
    ∃ st', sampleLoop R.getLast?.toList (alts.map (altOf R)) (alts.map (alleleTypeOf R))
        samples st = .ok st' ∧
      ∀ k, k ∈ st'.seenGenos.map Prod.fst ↔
        k ∈ st.seenGenos.map Prod.fst ∨ ∃ s ∈ samples, ∃ i ∈ s.GT, k = alleleKey R alts i := by
  induction samples generalizing st with
  | nil => exact ⟨st, rfl, by simp⟩
  | cons s rest ih =>
    have hs := sampleBody_accepted R alts hA s (hlen s (List.mem_cons_self s rest))
      (hGT s (List.mem_cons_self s rest)) st.seenGenos
    obtain ⟨st', hst', hkeys⟩ := ih (fun t ht => hlen t (List.mem_cons_of_mem s ht))
      (fun t ht => hGT t (List.mem_cons_of_mem s ht))
      ⟨(s.GT.countP (pointsToDeletion R alts) : Nat),
        (s.GT.countP (pointsToInsertion R alts) : Nat),
        st.sampleOut ++ sampleToken (s.GT.countP (pointsToDeletion R alts) : Nat)
          (s.GT.countP (pointsToInsertion R alts) : Nat) s.GT.length
          (s.GT.flatMap (gtPiece R alts)) ++ ['\t', '1', '\t'],
        s.GT.foldl (fun m i => count m (alleleKey R alts i)) st.seenGenos⟩
    refine ⟨st', ?_, ?_⟩
    · simp only [sampleLoop, hs]
      exact hst'
    · intro k
      have h1 := hkeys k
      simp only at h1
      rw [h1, mem_keys_foldl_count]
      simp only [List.mem_cons, exists_eq_or_imp]
      exact or_assoc

/-! ### The range over the tally -/

theorem rangeSeenGenos_seenRef (ref : GoString) (size : Int) (m : GoMap) (s : RangeState)
    (hs : s.seenRef = 0 ∨ s.seenRef = 1) :
    ((rangeSeenGenos ref size m s).seenRef = 0 ∨ (rangeSeenGenos ref size m s).seenRef = 1) ∧
      ((rangeSeenGenos ref size m s).seenRef = 1 →
        s.seenRef = 1 ∨ ref ∈ m.map Prod.fst) := by
  induction m generalizing s with
  | nil => simp [rangeSeenGenos, hs]
  | cons e m ih =>
    obtain ⟨geno, n⟩ := e
    have key : ∀ a b c d, s.seenRef = 0 ∨ s.seenRef = 1 →
        ((rangeSeenGenos ref size m
            ⟨if (s.seenRef == 0 && geno == ref) = true then 1 else s.seenRef, a, b, c⟩).seenRef = d →
          d = 1 → s.seenRef = 1 ∨ ref = geno ∨ ref ∈ m.map Prod.fst) ∧
        ((rangeSeenGenos ref size m
            ⟨if (s.seenRef == 0 && geno == ref) = true then 1 else s.seenRef, a, b, c⟩).seenRef = 0 ∨
         (rangeSeenGenos ref size m
            ⟨if (s.seenRef == 0 && geno == ref) = true then 1 else s.seenRef, a, b, c⟩).seenRef = 1) := by
      intro a b c d hs'
      have h01 : (if (s.seenRef == 0 && geno == ref) = true then (1 : Int) else s.seenRef) = 0 ∨
          (if (s.seenRef == 0 && geno == ref) = true then (1 : Int) else s.seenRef) = 1 := by
        split
        · exact Or.inr rfl
        · exact hs'
      obtain ⟨h1, h2⟩ := ih ⟨if (s.seenRef == 0 && geno == ref) = true then 1 else s.seenRef,
        a, b, c⟩ h01
      refine ⟨?_, h1⟩
      intro hd hd1
      subst hd
      rcases h2 hd1 with h | h
      · simp only at h
        split at h
        · rename_i hc
          simp only [Bool.and_eq_true, beq_iff_eq] at hc
          exact Or.inr (Or.inl hc.2.symm)
        · exact Or.inl h
      · exact Or.inr (Or.inr h)
    simp only [rangeSeenGenos, List.map_cons, List.mem_cons]
    split
    · obtain ⟨h1, h2⟩ := key (s.genoCount + 1) (s.altBuff ++ geno ++ [','])
        (s.altCountBuff ++ Itoa n ++ [',']) _ hs
      exact ⟨h2, fun h => h1 rfl h⟩
    · obtain ⟨h1, h2⟩ := key (s.genoCount + 1) (s.altBuff ++ geno)
        (s.altCountBuff ++ Itoa n) _ hs
      exact ⟨h2, fun h => h1 rfl h⟩

/-! ### Counting distinct keys -/

theorem two_le_length_of_mem (l : List GoString) (a b : GoString) (ha : a ∈ l) (hb : b ∈ l)
    (hab : a ≠ b) : 2 ≤ l.length := by
  have hsub : ({a, b} : Finset GoString) ⊆ l.toFinset := by
    intro x hx
    simp only [Finset.mem_insert, Finset.mem_singleton] at hx
    rcases hx with h | h <;> subst h <;> simpa using ‹_›
  have hcard : ({a, b} : Finset GoString).card = 2 := Finset.card_pair hab
  have := Finset.card_le_card hsub
  have := List.toFinset_card_le l
  omega

theorem three_le_length_of_mem (l : List GoString) (a b c : GoString) (ha : a ∈ l)
    (hb : b ∈ l) (hc : c ∈ l) (hab : a ≠ b) (hac : a ≠ c) (hbc : b ≠ c) :
    3 ≤ l.length := by
  have hsub : ({a, b, c} : Finset GoString) ⊆ l.toFinset := by
    intro x hx
    simp only [Finset.mem_insert, Finset.mem_singleton] at hx
    rcases hx with h | h | h <;> subst h <;> simpa using ‹_›
  have hcard : ({a, b, c} : Finset GoString).card = 3 := Finset.card_eq_three.mpr
    ⟨a, b, c, hab, hac, hbc, rfl⟩
  have := Finset.card_le_card hsub
  have := List.toFinset_card_le l
  omega

theorem alleleKey_of_index (R : GoString) (alts : List GoString) (i : Int) (k : GoString)
    (h : index (alts.map (altOf R)) (i - 1) = some k) :
    alleleKey R alts i = k ∧ 0 ≤ i := by
  have h0 : (0 : Int) ≤ i - 1 := by
    by_contra hn
    simp [index, hn] at h
  have hne : (i == 0) = false := by
    have : i ≠ 0 := by omega
    simpa using this
  rw [index_map] at h
  cases hidx : index alts (i - 1) with
  | none => rw [hidx] at h; cases h
  | some a =>
    rw [hidx] at h
    simp only [Option.map_some', Option.some.injEq] at h
    refine ⟨?_, by omega⟩
    simp [alleleKey, hne, hidx, h]

/-! ### One accepted record -/

theorem processRecord_accepted (st : RunState) (v : Variant)
    (hR : MatchString v.Reference = true) (hA : ∀ a ∈ v.Alternate, MatchString a = true)
    (hlen : ∀ s ∈ v.Samples, s.GT.length ≤ 2)
    (hGT : ∀ s ∈ v.Samples, ∀ i ∈ s.GT, 0 ≤ i ∧ i ≤ (v.Alternate.length : Int)) :
    ∃ s, sampleLoop v.Reference.getLast?.toList (v.Alternate.map (altOf v.Reference))
          (v.Alternate.map (alleleTypeOf v.Reference)) v.Samples
          ⟨st.delCount, st.insCount, [], []⟩ = .ok s ∧
      (∀ k, k ∈ s.seenGenos.map Prod.fst ↔
        ∃ t ∈ v.Samples, ∃ i ∈ t.GT, k = alleleKey v.Reference v.Alternate i) ∧
      processRecord st v =
        .wrote
          ⟨if !Contains v.Chromosome "chr".toList then "chr".toList ++ v.Chromosome
              else v.Chromosome,
            posAfter v.Pos v.Reference v.Alternate 0, v.Reference.getLast?.toList,
            classify s.seenGenos.length
              (rangeSeenGenos v.Reference.getLast?.toList s.seenGenos.length s.seenGenos
                ⟨0, 0, [], []⟩).seenRef s.delCount s.insCount,
            (rangeSeenGenos v.Reference.getLast?.toList s.seenGenos.length s.seenGenos
                ⟨0, 0, [], []⟩).altBuff,
            (rangeSeenGenos v.Reference.getLast?.toList s.seenGenos.length s.seenGenos
                ⟨0, 0, [], []⟩).altCountBuff,
            TrimRightTab s.sampleOut, s.seenGenos⟩
          ⟨s.insCount, s.delCount⟩ := by
  obtain ⟨s, hs, hkeys⟩ := sampleLoop_accepted v.Reference v.Alternate hA v.Samples hlen hGT
    ⟨st.delCount, st.insCount, [], []⟩
  refine ⟨s, hs, ?_, ?_⟩
  · intro k
    rw [hkeys k]
    simp
  · simp only [processRecord, getCall_valid v.Pos v.Reference v.Alternate hR hA, hs]

/-- Claim C9 as amended.  On a record `getCall` accepts whose samples all carry at most
two genotype indices in `0..len(alts)`: when two genotype indices `i` and `j` occurring
in the samples select normalised alternates (the strings `getCall` returns in `alt`)
that differ from each other and both differ from the normalised reference, the record is
written with the call type `MULTIALLELIC`, whatever the run-scoped counters hold. -/
theorem callType_multiallelic (st : RunState) (v : Variant) (call : Call)
    (hcall : getCall v.Pos v.Reference v.Alternate = some call) (herr : call.err = none)
    (hlen : ∀ s ∈ v.Samples, s.GT.length ≤ 2)
    (hGT : ∀ s ∈ v.Samples, ∀ i ∈ s.GT, 0 ≤ i ∧ i ≤ (v.Alternate.length : Int))
    (i j : Int) (hi : ∃ s ∈ v.Samples, i ∈ s.GT) (hj : ∃ s ∈ v.Samples, j ∈ s.GT)
    (ki kj : GoString) (hki : index call.alt (i - 1) = some ki)
    (hkj : index call.alt (j - 1) = some kj)
    (hij : ki ≠ kj) (hir : ki ≠ call.ref) (hjr : kj ≠ call.ref) :
    ∃ row next, processRecord st v = .wrote row next ∧
      row.callType = "MULTIALLELIC".toList := by
  obtain ⟨hR, hA⟩ := getCall_ok_inv _ _ _ call hcall herr
  rw [getCall_valid _ _ _ hR hA] at hcall
  cases hcall
  simp only at hki hkj hir hjr
  obtain ⟨hki', _⟩ := alleleKey_of_index _ _ i ki hki
  obtain ⟨hkj', _⟩ := alleleKey_of_index _ _ j kj hkj
  obtain ⟨s, _, hkeys, hrow⟩ := processRecord_accepted st v hR hA hlen hGT
  refine ⟨_, _, hrow, ?_⟩
  simp only
  have hmi : ki ∈ s.seenGenos.map Prod.fst := by
    obtain ⟨t, ht, hit⟩ := hi
    exact (hkeys ki).mpr ⟨t, ht, i, hit, hki'.symm⟩
  have hmj : kj ∈ s.seenGenos.map Prod.fst := by
    obtain ⟨t, ht, hjt⟩ := hj
    exact (hkeys kj).mpr ⟨t, ht, j, hjt, hkj'.symm⟩
  obtain ⟨h01, href⟩ := rangeSeenGenos_seenRef v.Reference.getLast?.toList
    s.seenGenos.length s.seenGenos ⟨0, 0, [], []⟩ (Or.inl rfl)
  have hlenmap : (s.seenGenos.map Prod.fst).length = s.seenGenos.length := by simp
  have hgt : (s.seenGenos.length : Int) -
      (rangeSeenGenos v.Reference.getLast?.toList s.seenGenos.length s.seenGenos
        ⟨0, 0, [], []⟩).seenRef > 1 := by
    rcases h01 with h0 | h1
    · have := two_le_length_of_mem _ ki kj hmi hmj hij
      rw [h0]
      omega
    · have hmr : v.Reference.getLast?.toList ∈ s.seenGenos.map Prod.fst := by
        rcases href h1 with h | h
        · simp at h
        · exact h
      have := three_le_length_of_mem _ ki kj _ hmi hmj hmr hij hir hjr
      rw [h1]
      omega
  simp [classify, hgt]

/-- Witness of the amended C9: reference `A`, alternates `C` and `G`, one sample `1/2`. -/
theorem callType_multiallelic_witness :
    ∃ row next,
      processRecord ⟨0, 0⟩ ⟨['1'], 100, ['A'], [['C'], ['G']], [⟨[1, 2]⟩]⟩ = .wrote row next ∧
      row.callType = "MULTIALLELIC".toList :=
  callType_multiallelic ⟨0, 0⟩ ⟨['1'], 100, ['A'], [['C'], ['G']], [⟨[1, 2]⟩]⟩
    ⟨100, ['A'], [['C'], ['G']], [['S'], ['S']], none⟩ (by decide) rfl (by decide) (by decide)
    1 2 (by decide) (by decide) ['C'] ['G'] (by decide) (by decide) (by decide) (by decide)
    (by decide)

/-- Claim C9 fails as stated.  Reference `AC` with the two different alternates `AG` and
`TG`, both selected by the sample `1/2`: both normalise to the key `G`, the tally holds
one key, and the call type is `SNP`. -/
theorem callType_two_alternates_one_key :
    processRecord ⟨0, 0⟩
        ⟨"chr1".toList, 100, ['A', 'C'], [['A', 'G'], ['T', 'G']], [⟨[1, 2]⟩]⟩ =
      .wrote ⟨"chr1".toList, 100, ['C'], "SNP".toList, ['G'], ['2'], "G\t1".toList,
        [(['G'], 2)]⟩ ⟨0, 0⟩ ∧
    index [(['A', 'G'] : GoString), ['T', 'G']] (1 - 1) = some ['A', 'G'] ∧
    index [(['A', 'G'] : GoString), ['T', 'G']] (2 - 1) = some ['T', 'G'] ∧
    (['A', 'G'] : GoString) ≠ ['T', 'G'] ∧
    ("SNP".toList : GoString) ≠ "MULTIALLELIC".toList := by
  decide

/-! ## Ploidy above two -/

theorem sampleLoop_not_ok (ref : GoString) (alt alleleTypes : List GoString)
    (samples : List SampleGenotype) (h : ∃ s ∈ samples, 3 ≤ s.GT.length)
    (st : SampleState) :
    sampleLoop ref alt alleleTypes samples st = .fatal ∨
      sampleLoop ref alt alleleTypes samples st = .fault := by
  induction samples generalizing st with
  | nil => simp at h
  | cons s rest ih =>
    by_cases hs : 3 ≤ s.GT.length
    · have hgt : s.GT.length > 2 := by omega
      left
      simp [sampleLoop, sampleBody, hgt]
    · have hrest : ∃ t ∈ rest, 3 ≤ t.GT.length := by
        obtain ⟨t, ht, h3⟩ := h
        rcases List.mem_cons.mp ht with h' | h'
        · subst h'; exact absurd h3 hs
        · exact ⟨t, h', h3⟩
      unfold sampleLoop
      cases hb : sampleBody ref alt alleleTypes s st.seenGenos with
      | fatal => exact Or.inl rfl
      | fault => exact Or.inr rfl
      | ok value =>
        obtain ⟨token, g⟩ := value
        exact ih hrest _

theorem processRecord_polyploid (st : RunState) (v : Variant)
    (hacc : ∀ c, getCall v.Pos v.Reference v.Alternate = some c → c.err = none)
    (h : ∃ s ∈ v.Samples, 3 ≤ s.GT.length) :
    processRecord st v = .fatal ∨ processRecord st v = .fault := by
  unfold processRecord
  cases hc : getCall v.Pos v.Reference v.Alternate with
  | none => exact Or.inr rfl
  | some call =>
    have he := hacc call hc
    simp only [he]
    rcases sampleLoop_not_ok call.ref call.alt call.alleleTypes v.Samples h
      ⟨st.delCount, st.insCount, [], []⟩ with h' | h'
    · rw [h']; exact Or.inl rfl
    · rw [h']; exact Or.inr rfl

theorem recordLoop_polyploid (pre : List Variant) (v : Variant) (post : List Variant)
    (hacc : ∀ c, getCall v.Pos v.Reference v.Alternate = some c → c.err = none)
    (h : ∃ s ∈ v.Samples, 3 ≤ s.GT.length) (st : RunState) :
    (recordLoop (pre ++ v :: post) st).1 = (recordLoop pre st).1 ∧
      (recordLoop (pre ++ v :: post) st).2 ≠ .finished := by
  induction pre generalizing st with
  | nil =>
    rcases processRecord_polyploid st v hacc h with h' | h' <;>
      simp [recordLoop, h']
  | cons w pre ih =>
    simp only [List.cons_append, recordLoop]
    cases hw : processRecord st w with
    | skipped err next => exact ih next
    | wrote row next =>
      obtain ⟨h1, h2⟩ := ih next
      exact ⟨by simp [h1], h2⟩
    | fatal => simp
    | fault => simp

/-- Claim C10 as amended.  In a stream of records, when `getCall` returns no error for a
record and one of its samples carries three or more genotype indices, the run does not
finish and the rows written are those of the records before it: no row is written for
that record or for a later one. -/
theorem run_polyploid (pre : List Variant) (v : Variant) (post : List Variant)
    (hacc : ∀ c, getCall v.Pos v.Reference v.Alternate = some c → c.err = none)
    (h : ∃ s ∈ v.Samples, 3 ≤ s.GT.length) :
    (run (pre ++ v :: post)).1 = (run pre).1 ∧ (run (pre ++ v :: post)).2 ≠ .finished :=
  recordLoop_polyploid pre v post hacc h ⟨0, 0⟩

/-- Witness of the amended C10: a triploid sample on the accepted record `A > C` between
two diploid records. -/
theorem run_polyploid_witness :
    (run ([⟨"chr1".toList, 100, ['A'], [['C']], [⟨[0, 1]⟩]⟩] ++
          ⟨"chr1".toList, 200, ['A'], [['C']], [⟨[0, 1, 1]⟩]⟩ ::
          [⟨"chr1".toList, 300, ['A'], [['C']], [⟨[0, 1]⟩]⟩])).1 =
        (run [⟨"chr1".toList, 100, ['A'], [['C']], [⟨[0, 1]⟩]⟩]).1 ∧
      (run ([⟨"chr1".toList, 100, ['A'], [['C']], [⟨[0, 1]⟩]⟩] ++
          ⟨"chr1".toList, 200, ['A'], [['C']], [⟨[0, 1, 1]⟩]⟩ ::
          [⟨"chr1".toList, 300, ['A'], [['C']], [⟨[0, 1]⟩]⟩])).2 ≠ .finished :=
  run_polyploid [⟨"chr1".toList, 100, ['A'], [['C']], [⟨[0, 1]⟩]⟩]
    ⟨"chr1".toList, 200, ['A'], [['C']], [⟨[0, 1, 1]⟩]⟩
    [⟨"chr1".toList, 300, ['A'], [['C']], [⟨[0, 1]⟩]⟩]
    (fun c hc => by
      have hval : getCall 200 ['A'] [['C']] = some ⟨200, ['A'], [['C']], [['S']], none⟩ := by
        decide
      rw [hval] at hc
      cases hc
      rfl)
    (by decide)

/-- Claim C10 fails as stated.  A record with the reference `N` and a sample of three
genotype indices is skipped on the error `getCall` returns, before the ploidy check:
the run finishes and writes the row of the record after it. -/
theorem run_polyploid_skipped :
    (run [⟨"chr1".toList, 100, ['N'], [['A']], [⟨[0, 1, 1]⟩]⟩,
          ⟨"chr1".toList, 200, ['A'], [['C']], [⟨[0, 1]⟩]⟩]).1.map
        (fun r => (r.pos, r.callType, r.samples)) = [(200, "SNP".toList, "M\t1".toList)] ∧
    (run [⟨"chr1".toList, 100, ['N'], [['A']], [⟨[0, 1, 1]⟩]⟩,
          ⟨"chr1".toList, 200, ['A'], [['C']], [⟨[0, 1]⟩]⟩]).2 = .finished ∧
    3 ≤ ([0, 1, 1] : List Int).length := by
  decide

/-! ## The fragment name -/

theorem processRecord_wrote_inv (st : RunState) (v : Variant) (row : Row) (next : RunState)
    (h : processRecord st v = .wrote row next) :
    ∃ call s, getCall v.Pos v.Reference v.Alternate = some call ∧ call.err = none ∧
      sampleLoop call.ref call.alt call.alleleTypes v.Samples
        ⟨st.delCount, st.insCount, [], []⟩ = .ok s ∧
      row = ⟨fragmentName v.Chromosome, call.pos, call.ref,
        classify s.seenGenos.length
          (rangeSeenGenos call.ref s.seenGenos.length s.seenGenos ⟨0, 0, [], []⟩).seenRef
          s.delCount s.insCount,
        (rangeSeenGenos call.ref s.seenGenos.length s.seenGenos ⟨0, 0, [], []⟩).altBuff,
        (rangeSeenGenos call.ref s.seenGenos.length s.seenGenos ⟨0, 0, [], []⟩).altCountBuff,
        TrimRightTab s.sampleOut, s.seenGenos⟩ ∧
      next = ⟨s.insCount, s.delCount⟩ := by
  unfold processRecord at h
  cases hc : getCall v.Pos v.Reference v.Alternate with
  | none => simp [hc] at h
  | some call =>
    cases he : call.err with
    | some err => simp [hc, he] at h
    | none =>
      cases hs : sampleLoop call.ref call.alt call.alleleTypes v.Samples
          ⟨st.delCount, st.insCount, [], []⟩ with
      | fatal => simp [hc, he, hs] at h
      | fault => simp [hc, he, hs] at h
      | ok s =>
        simp only [hc, he, hs, RecordResult.wrote.injEq] at h
        exact ⟨call, s, rfl, he, hs, h.1.symm, h.2.symm⟩

theorem Contains_of_isPrefixOf (s substr : GoString) (h : substr.isPrefixOf s = true) :
    Contains s substr = true := by
  unfold Contains
  rw [List.any_eq_true]
  exact ⟨s, (List.mem_tails s s).mpr (List.suffix_refl s), h⟩

theorem fragmentName_facts (c : GoString) :
    (("chr".toList).isPrefixOf c = true → fragmentName c = c) ∧
    (Contains c "chr".toList = false → fragmentName c = "chr".toList ++ c) ∧
    Contains (fragmentName c) "chr".toList = true ∧
    fragmentName (fragmentName c) = fragmentName c := by
  have hpre : ("chr".toList).isPrefixOf ("chr".toList ++ c) = true := by
    rw [List.isPrefixOf_iff_prefix]
    exact List.prefix_append _ _
  have hcont : Contains (fragmentName c) "chr".toList = true := by
    unfold fragmentName
    split
    · exact Contains_of_isPrefixOf _ _ hpre
    · rename_i h
      simpa using h
  refine ⟨?_, ?_, hcont, ?_⟩
  · intro h
    unfold fragmentName
    rw [Contains_of_isPrefixOf c _ h]
    rfl
  · intro h
    unfold fragmentName
    rw [h]
    rfl
  · rw [show fragmentName (fragmentName c) =
        (if !Contains (fragmentName c) "chr".toList then "chr".toList ++ fragmentName c
          else fragmentName c) from rfl, hcont]
    rfl

/-- Claim C11, at an input on which the code departs from it.  The contig name `xchr1`
does not start with `chr` but contains it, so the statement guarded by
`strings.Contains` leaves it alone: the row of a record on that contig carries the
fragment name `xchr1`, which does not start with `chr`, where the claim says
`chrxchr1`. -/
theorem fragmentName_contains_not_prefixed :
    fragmentName "xchr1".toList = "xchr1".toList ∧
    ("chr".toList).isPrefixOf "xchr1".toList = false ∧
    ("chr".toList).isPrefixOf (fragmentName "xchr1".toList) = false ∧
    (processRecord ⟨0, 0⟩ ⟨"xchr1".toList, 100, ['A'], [['C']], [⟨[0, 1]⟩]⟩).row?.map
      (fun r => r.Chromosome) = some "xchr1".toList := by
  decide

/-! ## The header line -/

theorem headerLoop_eq (numSamples : Int) (names : List GoString) (index : Int) (out : GoString)
    (h : index + (names.length : Int) ≤ numSamples) :
    headerLoop numSamples names index out = out ++ names.flatMap (fun n => n ++ ['\t']) := by
  induction names generalizing index out with
  | nil => simp [headerLoop]
  | cons name rest ih =>
    have hlt : index - 1 < numSamples := by
      simp only [List.length_cons] at h
      push_cast at h
      omega
    have hrest : index + 1 + (rest.length : Int) ≤ numSamples := by
      simp only [List.length_cons] at h
      push_cast at h
      omega
    simp only [headerLoop, if_pos hlt, ih (index + 1) _ hrest, List.flatMap_cons,
      List.append_assoc]

/-- Claim C12, at the inputs on which the code departs from it.  The guard
`index-1 < numSamples` holds at every index of the loop, so a tab is written after each
sample name, the last one included: for every list of sample names the header line is
the six fixed columns, each followed by a tab, then each sample name followed by a tab,
then the newline.  For the single sample `S1` the line ends in `S1`, tab, newline. -/
theorem header_tab_after_last_sample (names : List GoString) :
    header names =
      "Fragment\tPosition\tReference\tType\tAlleles\tAllele_Counts\t".toList ++
        names.flatMap (fun n => n ++ ['\t']) ++ ['\n'] ∧
    header [['S', '1']] =
      "Fragment\tPosition\tReference\tType\tAlleles\tAllele_Counts\tS1\t\n".toList := by
  constructor
  · unfold header
    rw [headerLoop_eq _ names 0 _ (by simp)]
  · decide

/-! ## The errors of `getCall` -/

/-- Claim C18.  In the insertion branch (`len(R) < len(A)`) the slice `A[len(R):]` is
in bounds and has `len(A) - len(R) >= 1` bytes, so the buffer is longer than one byte;
`getCall` never returns the error built from `Failed to make alt for INS`, and each
error it returns is the validation error of the reference or that of an alternate that
does not match. -/
theorem getCall_errors_are_validation (p : Nat) (R : GoString) (alts : List GoString) :
    (∀ A : GoString, R.length < A.length →
      sliceFrom A R.length = some (A.drop R.length) ∧
        (A.drop R.length).length = A.length - R.length ∧
        (['+'] ++ A.drop R.length).length ≠ 1) ∧
    (∀ c position reference, getCall p R alts = some c →
      c.err ≠ some (.failedIns position reference)) ∧
    (∀ c e, getCall p R alts = some c → c.err = some e →
      (MatchString R = false ∧ e = .refNotACTG R) ∨
        ∃ a ∈ alts, MatchString a = false ∧ e = .altNotACTG a) := by
  have key : ∀ c e, getCall p R alts = some c → c.err = some e →
      (MatchString R = false ∧ e = .refNotACTG R) ∨
        ∃ a ∈ alts, MatchString a = false ∧ e = .altNotACTG a := by
    intro c e hc he
    have hne : R ≠ [] := by
      intro hnil
      subst hnil
      rw [getCall_nil_ref] at hc
      cases hc
    by_cases hm : MatchString R = true
    · by_cases ha : ∀ a ∈ alts, MatchString a = true
      · rw [getCall_valid p R alts hm ha] at hc
        cases hc
        cases he
      · have ha' : ∃ a ∈ alts, MatchString a = false := by
          by_contra hcon
          apply ha
          intro a hmem
          by_contra hna
          exact hcon ⟨a, hmem, by simpa using hna⟩
        obtain ⟨c', a, hc', hmem, hbad, herr⟩ :=
          getCallLoop_invalid p R R.getLast?.toList hne alts ha' 0 [] []
        rw [getCall_valid_ref p R alts hm, hc'] at hc
        cases hc
        rw [herr] at he
        cases he
        exact Or.inr ⟨a, hmem, hbad, rfl⟩
    · have hm' : MatchString R = false := by simpa using hm
      obtain ⟨b, _, hcall⟩ := getCall_of_ne_nil p R alts hne
      rw [hcall] at hc
      simp only [hm', Bool.not_false, if_true, Option.some.injEq] at hc
      subst hc
      cases he
      exact Or.inl ⟨hm', rfl⟩
  refine ⟨?_, ?_, key⟩
  · intro A hlt
    refine ⟨sliceFrom_ok A R.length (le_of_lt hlt), by simp, ?_⟩
    simp only [List.length_append, List.length_cons, List.length_nil, List.length_drop]
    omega
  · intro c position reference hc he
    rcases key c _ hc he with h | h
    · cases h.2
    · obtain ⟨a, _, _, h⟩ := h
      cases h

/-- Witness of C18: reference `A` with the insertion `AC` and the invalid alternate
`N`; the error returned is the validation error of `N`. -/
theorem getCall_errors_are_validation_witness :
    (MatchString ['A'] = false ∧ CallError.altNotACTG ['N'] = .refNotACTG ['A']) ∨
      ∃ a ∈ [['A', 'C'], ['N']], MatchString a = false ∧
        CallError.altNotACTG ['N'] = .altNotACTG a :=
  (getCall_errors_are_validation 100 ['A'] [['A', 'C'], ['N']]).2.2
    ⟨100, ['A'], [['+', 'C']], [['I']], some (.altNotACTG ['N'])⟩ (.altNotACTG ['N'])
    (by decide) rfl

/-! ## The position returned by `getCall` -/

theorem posAfter_no_deletion (p : Nat) (R : GoString) (alts : List GoString)
    (h : ∀ a ∈ alts, ¬ a.length < R.length) (pos : Nat) :
    posAfter p R alts pos = if alts = [] then pos else if pos = 0 then p else pos := by
  induction alts generalizing pos with
  | nil => simp [posAfter]
  | cons a rest ih =>
    have ha : ¬ R.length > a.length := h a (List.mem_cons_self a rest)
    have hrest : ∀ b ∈ rest, ¬ b.length < R.length :=
      fun b hb => h b (List.mem_cons_of_mem a hb)
    simp only [posAfter, if_neg ha, ih hrest, beq_iff_eq, List.cons_ne_nil, if_false]
    by_cases hpos : pos = 0
    · subst hpos
      simp
    · simp [hpos]

theorem posAfter_last_deletion (p : Nat) (R : GoString) (hp : p + R.length < 2 ^ 64)
    (alts : List GoString) (d : GoString)
    (h : (alts.filter (fun a => decide (a.length < R.length))).getLast? = some d)
    (pos : Nat) :
    posAfter p R alts pos = p + (R.length - d.length) := by
  induction alts generalizing pos with
  | nil => simp at h
  | cons a rest ih =>
    by_cases ha : a.length < R.length
    · have hgt : R.length > a.length := ha
      have h1 : toUint64 ((R.length : Int) - (a.length : Int)) = R.length - a.length :=
        toUint64_sub R.length a.length ha (by omega)
      have h2 : (p + (R.length - a.length)) % 2 ^ 64 = p + (R.length - a.length) :=
        Nat.mod_eq_of_lt (by omega)
      simp only [posAfter, if_pos hgt, h1, h2]
      rw [List.filter_cons_of_pos (by simpa using ha)] at h
      cases hf : rest.filter (fun a => decide (a.length < R.length)) with
      | nil =>
        rw [hf] at h
        simp only [List.getLast?_singleton, Option.some.injEq] at h
        subst h
        have hnone : ∀ b ∈ rest, ¬ b.length < R.length := by
          intro b hb hlt
          have : b ∈ rest.filter (fun a => decide (a.length < R.length)) :=
            List.mem_filter.mpr ⟨hb, by simpa using hlt⟩
          rw [hf] at this
          cases this
        rw [posAfter_no_deletion p R rest hnone]
        have hne : p + (R.length - a.length) ≠ 0 := by omega
        split
        · rfl
        · simp [hne]
      | cons b fr =>
        rw [hf, List.getLast?_cons_cons] at h
        exact ih (by rw [hf]; exact h) _
    · have hgt : ¬ R.length > a.length := ha
      rw [List.filter_cons_of_neg (by simpa using ha)] at h
      simp only [posAfter, if_neg hgt]
      exact ih h _

/-- Claim C15.  For a valid reference `R`, a non-empty list of valid alternates and
`p + len(R) < 2^64`, `getCall` returns no error and the position
`p + (len(R) - len(A))` for the last alternate `A` of the list that is shorter than `R`,
and `p` when no alternate is shorter than `R`. -/
theorem getCall_final_position (p : Nat) (R : GoString) (alts : List GoString)
    (hR : MatchString R = true) (hA : ∀ a ∈ alts, MatchString a = true)
    (hne : alts ≠ []) (hp : p + R.length < 2 ^ 64) :
    ∃ c, getCall p R alts = some c ∧ c.err = none ∧
      c.pos =
        match (alts.filter (fun a => decide (a.length < R.length))).getLast? with
        | some A => p + (R.length - A.length)
        | none => p := by
  refine ⟨_, getCall_valid p R alts hR hA, rfl, ?_⟩
  simp only
  cases hlast : (alts.filter (fun a => decide (a.length < R.length))).getLast? with
  | some d => exact posAfter_last_deletion p R hp alts d hlast 0
  | none =>
    have hnil : alts.filter (fun a => decide (a.length < R.length)) = [] :=
      List.getLast?_eq_none_iff.mp hlast
    have hnone : ∀ b ∈ alts, ¬ b.length < R.length := by
      intro b hb hlt
      have : b ∈ alts.filter (fun a => decide (a.length < R.length)) :=
        List.mem_filter.mpr ⟨hb, by simpa using hlt⟩
      rw [hnil] at this
      cases this
    rw [posAfter_no_deletion p R alts hnone]
    simp [hne]

/-- Witness of C15: reference `ACG` at position 100 with the alternates `A` (deletion
of two), `ACGT` (insertion), `AC` (deletion of one) and `TTT` (substitution): the last
deletion decides and the position is 101. -/
theorem getCall_final_position_witness :
    ∃ c, getCall 100 ['A', 'C', 'G']
        [['A'], ['A', 'C', 'G', 'T'], ['A', 'C'], ['T', 'T', 'T']] = some c ∧
      c.err = none ∧
      c.pos =
        match ([['A'], ['A', 'C', 'G', 'T'], ['A', 'C'], ['T', 'T', 'T']].filter
            (fun a => decide (a.length < (['A', 'C', 'G'] : GoString).length))).getLast? with
        | some A => 100 + ((['A', 'C', 'G'] : GoString).length - A.length)
        | none => 100 :=
  getCall_final_position 100 ['A', 'C', 'G']
    [['A'], ['A', 'C', 'G', 'T'], ['A', 'C'], ['T', 'T', 'T']]
    (by decide) (by decide) (by decide) (by decide)

theorem getCall_position_of_equal_lengths (p : Nat) (R : GoString) (alts : List GoString)
    (hR : MatchString R = true) (hA : ∀ a ∈ alts, MatchString a = true)
    (hne : alts ≠ []) (hlen : ∀ a ∈ alts, a.length = R.length) :
    ∃ c, getCall p R alts = some c ∧ c.err = none ∧ c.pos = p := by
  refine ⟨_, getCall_valid p R alts hR hA, rfl, ?_⟩
  have hnone : ∀ b ∈ alts, ¬ b.length < R.length := fun b hb => by
    have := hlen b hb
    omega
  simp only
  rw [posAfter_no_deletion p R alts hnone]
  simp [hne]

/-- Claim C13, at the input on which the code departs from it.  With a valid reference
and no alternate the loop of `getCall` does not run and `pos` keeps its zero value:
`getCall` returns no error and the position 0 at every input position, 100 included,
although no alternate is a deletion or an insertion. -/
theorem getCall_no_alternate_position (p : Nat) :
    getCall p ['A'] [] = some ⟨0, ['A'], [], [], none⟩ ∧
    getCall 100 ['A'] [] = some ⟨0, ['A'], [], [], none⟩ ∧
    MatchString ['A'] = true := by
  exact ⟨rfl, rfl, rfl⟩

/-! ## The alphabet of the sample tokens -/

theorem iupac_lookup_single (c : Char) (h : isBase c = true) :
    iupac.lookup [c] = some (iupacAt [c]) ∧ iupacAt [c] ∈ tokenAlphabet ∧
      (iupacAt [c]).length = 1 := by
  rcases isBase_cases h with h | h | h | h <;> subst h <;> decide

theorem iupac_lookup_pair (c d : Char) (hc : isBase c = true) (hd : isBase d = true) :
    iupac.lookup [c, d] = some (iupacAt [c, d]) ∧ iupacAt [c, d] ∈ tokenAlphabet ∧
      (iupacAt [c, d]).length = 1 := by
  rcases isBase_cases hc with h | h | h | h <;> subst h <;>
    rcases isBase_cases hd with h | h | h | h <;> subst h <;> decide

theorem iupac_lookup_bases (R : GoString) (alts : List GoString)
    (hR : MatchString R = true) (hA : ∀ a ∈ alts, MatchString a = true) (GT : List Int)
    (hlen : GT.length = 1 ∨ GT.length = 2)
    (hGT : ∀ i ∈ GT, 0 ≤ i ∧ i ≤ (alts.length : Int)) :
    iupac.lookup (GT.flatMap (selectedBase R alts)) =
        some (iupacAt (GT.flatMap (selectedBase R alts))) ∧
      iupacAt (GT.flatMap (selectedBase R alts)) ∈ tokenAlphabet ∧
      (iupacAt (GT.flatMap (selectedBase R alts))).length = 1 := by
  match GT, hlen, hGT with
  | [i], _, hGT =>
    obtain ⟨c, hc, hsel⟩ := selectedBase_base R alts hR hA i (hGT i (by simp))
    simp only [List.flatMap_cons, List.flatMap_nil, List.append_nil, hsel]
    exact iupac_lookup_single c hc
  | [i, j], _, hGT =>
    obtain ⟨c, hc, hsel⟩ := selectedBase_base R alts hR hA i (hGT i (by simp))
    obtain ⟨d, hd, hsel'⟩ := selectedBase_base R alts hR hA j (hGT j (by simp))
    simp only [List.flatMap_cons, List.flatMap_nil, List.append_nil, hsel, hsel']
    exact iupac_lookup_pair c d hc hd
  | [], h, _ => simp at h
  | _ :: _ :: _ :: _, h, _ => simp at h

/-- Claim C14 as amended.  On a record `getCall` accepts, for a sample with one or two
genotype indices in `0..len(alts)`, the body of the sample loop ends normally with one
token, which is one of the fourteen one-character strings `A C G T M R W S Y K D E I H`;
when no index selects a deletion or an insertion the key looked up in `iupac` is
present. -/
theorem sample_token_alphabet (p : Nat) (R : GoString) (alts : List GoString) (call : Call)
    (sample : SampleGenotype) (seen : GoMap)
    (hcall : getCall p R alts = some call) (herr : call.err = none)
    (hlen : sample.GT.length = 1 ∨ sample.GT.length = 2)
    (hGT : ∀ i ∈ sample.GT, 0 ≤ i ∧ i ≤ (alts.length : Int)) :
    ∃ token g, sampleBody call.ref call.alt call.alleleTypes sample seen = .ok (token, g) ∧
      token ∈ tokenAlphabet ∧ token.length = 1 ∧
      (g.delCount = 0 → g.insCount = 0 → iupac.lookup g.gt = some token) := by
  obtain ⟨hR, hA⟩ := getCall_ok_inv p R alts call hcall herr
  rw [getCall_valid p R alts hR hA] at hcall
  cases hcall
  refine ⟨_, _, sampleBody_accepted R alts hA sample (by omega) hGT seen, ?_⟩
  simp only
  by_cases hd : sample.GT.any (pointsToDeletion R alts) = true
  · rw [sampleToken_deletion _ _ sample.GT _ hd]
    have hpos := (countP_cast_pos (pointsToDeletion R alts) sample.GT).mpr hd
    refine ⟨?_, ?_, fun h0 => by omega⟩
    · split <;> decide
    · split <;> rfl
  · have hd' : sample.GT.any (pointsToDeletion R alts) = false := by simpa using hd
    by_cases hn : sample.GT.any (pointsToInsertion R alts) = true
    · rw [sampleToken_insertion _ _ sample.GT _ hd' hn]
      have hpos := (countP_cast_pos (pointsToInsertion R alts) sample.GT).mpr hn
      refine ⟨?_, ?_, fun _ h0 => by omega⟩
      · split <;> decide
      · split <;> rfl
    · have hn' : sample.GT.any (pointsToInsertion R alts) = false := by simpa using hn
      have hnone : ∀ i ∈ sample.GT,
          pointsToDeletion R alts i = false ∧ pointsToInsertion R alts i = false := by
        intro i hi
        exact ⟨by simpa using (List.any_eq_false.mp hd') i hi,
          by simpa using (List.any_eq_false.mp hn') i hi⟩
      rw [sampleToken_neither _ _ sample.GT _ hd' hn',
        flatMap_gtPiece_of_neither R alts sample.GT hnone]
      obtain ⟨h1, h2, h3⟩ := iupac_lookup_bases R alts hR hA sample.GT hlen hGT
      exact ⟨h2, h3, fun _ _ => h1⟩

/-- Witness of the amended C14: reference `A`, alternate `C`, genotype `[0, 1]`, whose
token is `M`. -/
theorem sample_token_alphabet_witness :
    (∃ token g, sampleBody ['A'] [['C']] [['S']] ⟨[0, 1]⟩ [] = .ok (token, g) ∧
      token ∈ tokenAlphabet ∧ token.length = 1 ∧
      (g.delCount = 0 → g.insCount = 0 → iupac.lookup g.gt = some token)) ∧
    sampleBody ['A'] [['C']] [['S']] ⟨[0, 1]⟩ [] =
      .ok (['M'], ⟨['A', 'C'], 0, 0, [(['A'], 1), (['C'], 1)]⟩) :=
  ⟨sample_token_alphabet 100 ['A'] [['C']] ⟨100, ['A'], [['C']], [['S']], none⟩ ⟨[0, 1]⟩ []
    (by decide) rfl (by decide) (by decide), by decide⟩

/-- Claim C14 fails as stated.  On the accepted record with reference `A` and alternate
`C`, a sample with no genotype index leaves the buffer `gt` empty; the key is not in
`iupac`, the lookup yields the empty string, and the sample's token is empty: its part
of the row is a tab followed by `1`. -/
theorem sample_without_genotype_empty_token :
    getCall 100 ['A'] [['C']] = some ⟨100, ['A'], [['C']], [['S']], none⟩ ∧
    sampleBody ['A'] [['C']] [['S']] ⟨[]⟩ [] = .ok ([], ⟨[], 0, 0, []⟩) ∧
    iupac.lookup ([] : GoString) = none ∧
    (processRecord ⟨0, 0⟩ ⟨"chr1".toList, 100, ['A'], [['C']], [⟨[]⟩]⟩).row?.map
      (fun r => r.samples) = some ['\t', '1'] := by
  decide

/-! ## Lookups in the tally -/

theorem lookup_set (m : GoMap) (key : GoString) (value : Int) (k : GoString) :
    List.lookup k (m.set key value) = if k = key then some value else List.lookup k m := by
  induction m with
  | nil =>
    by_cases h : k = key
    · subst h; simp [GoMap.set, List.lookup]
    · have hb : (k == key) = false := by simpa using h
      simp [GoMap.set, List.lookup, h, hb]
  | cons e m ih =>
    obtain ⟨k', v'⟩ := e
    by_cases h' : k' = key
    · subst h'
      by_cases h : k = k'
      · subst h; simp [GoMap.set, List.lookup]
      · have hb : (k == k') = false := by simpa using h
        simp [GoMap.set, List.lookup, h, hb]
    · by_cases h : k = k'
      · subst h
        have hne : ¬ k = key := h'
        simp [GoMap.set, List.lookup, h', hne]
      · have hb : (k == k') = false := by simpa using h
        simp only [GoMap.set, if_neg h', List.lookup, hb, ih]

theorem lookup_count (m : GoMap) (key k : GoString) :
    List.lookup k (count m key) =
      if k = key then some ((List.lookup key m).getD 0 + 1) else List.lookup k m := by
  unfold count GoMap.has GoMap.valueAt
  cases hl : List.lookup key m with
  | none => simp [lookup_set]
  | some n => simp [lookup_set]

theorem lookup_count_comm (m : GoMap) (a b k : GoString) :
    List.lookup k (count (count m a) b) = List.lookup k (count (count m b) a) := by
  simp only [lookup_count]
  by_cases hab : a = b
  · subst hab; rfl
  · have hba : ¬ b = a := fun h => hab h.symm
    by_cases hka : k = a
    · subst hka
      simp [hab, hba]
    · by_cases hkb : k = b
      · subst hkb
        simp [hab, hba]
      · simp [hka, hkb]

theorem iupacAt_comm (c d : Char) (hc : isBase c = true) (hd : isBase d = true) :
    iupacAt [c, d] = iupacAt [d, c] := by
  rcases isBase_cases hc with h | h | h | h <;> subst h <;>
    rcases isBase_cases hd with h | h | h | h <;> subst h <;> decide

theorem sampleToken_pair_comm (R : GoString) (alts : List GoString)
    (hR : MatchString R = true) (hA : ∀ a ∈ alts, MatchString a = true) (i j : Int)
    (hi : 0 ≤ i ∧ i ≤ (alts.length : Int)) (hj : 0 ≤ j ∧ j ≤ (alts.length : Int)) :
    sampleToken (([i, j] : List Int).countP (pointsToDeletion R alts) : Nat)
        (([i, j] : List Int).countP (pointsToInsertion R alts) : Nat)
        ([i, j] : List Int).length (([i, j] : List Int).flatMap (gtPiece R alts)) =
      sampleToken (([j, i] : List Int).countP (pointsToDeletion R alts) : Nat)
        (([j, i] : List Int).countP (pointsToInsertion R alts) : Nat)
        ([j, i] : List Int).length (([j, i] : List Int).flatMap (gtPiece R alts)) := by
  by_cases hd : ([i, j] : List Int).any (pointsToDeletion R alts) = true
  · have hd' : ([j, i] : List Int).any (pointsToDeletion R alts) = true := by
      simp only [List.any_cons, List.any_nil, Bool.or_false] at hd ⊢
      rw [Bool.or_comm]; exact hd
    rw [sampleToken_deletion _ _ [i, j] _ hd, sampleToken_deletion _ _ [j, i] _ hd']
    simp only [List.all_cons, List.all_nil, Bool.and_true]
    rw [Bool.and_comm]
  · have hdf : ([i, j] : List Int).any (pointsToDeletion R alts) = false := by simpa using hd
    have hdf' : ([j, i] : List Int).any (pointsToDeletion R alts) = false := by
      simp only [List.any_cons, List.any_nil, Bool.or_false] at hdf ⊢
      rw [Bool.or_comm]; exact hdf
    by_cases hn : ([i, j] : List Int).any (pointsToInsertion R alts) = true
    · have hn' : ([j, i] : List Int).any (pointsToInsertion R alts) = true := by
        simp only [List.any_cons, List.any_nil, Bool.or_false] at hn ⊢
        rw [Bool.or_comm]; exact hn
      rw [sampleToken_insertion _ _ [i, j] _ hdf hn,
        sampleToken_insertion _ _ [j, i] _ hdf' hn']
      simp only [List.all_cons, List.all_nil, Bool.and_true]
      rw [Bool.and_comm]
    · have hnf : ([i, j] : List Int).any (pointsToInsertion R alts) = false := by
        simpa using hn
      have hnf' : ([j, i] : List Int).any (pointsToInsertion R alts) = false := by
        simp only [List.any_cons, List.any_nil, Bool.or_false] at hnf ⊢
        rw [Bool.or_comm]; exact hnf
      have hnone : ∀ k ∈ ([i, j] : List Int),
          pointsToDeletion R alts k = false ∧ pointsToInsertion R alts k = false := by
        intro k hk
        exact ⟨by simpa using (List.any_eq_false.mp hdf) k hk,
          by simpa using (List.any_eq_false.mp hnf) k hk⟩
      have hnone' : ∀ k ∈ ([j, i] : List Int),
          pointsToDeletion R alts k = false ∧ pointsToInsertion R alts k = false := by
        intro k hk
        exact ⟨by simpa using (List.any_eq_false.mp hdf') k hk,
          by simpa using (List.any_eq_false.mp hnf') k hk⟩
      rw [sampleToken_neither _ _ [i, j] _ hdf hnf, sampleToken_neither _ _ [j, i] _ hdf' hnf',
        flatMap_gtPiece_of_neither R alts [i, j] hnone,
        flatMap_gtPiece_of_neither R alts [j, i] hnone']
      obtain ⟨c, hc, hsel⟩ := selectedBase_base R alts hR hA i hi
      obtain ⟨d, hd, hsel'⟩ := selectedBase_base R alts hR hA j hj
      simp only [List.flatMap_cons, List.flatMap_nil, List.append_nil, hsel, hsel']
      exact iupacAt_comm c d hc hd

/-! ## The order of a sample's genotype indices -/

/-- Claim C19.  On a record `getCall` accepts, for two genotype indices `i` and `j` in
`0..len(alts)` and a tally `seen`, the samples `[i, j]` and `[j, i]` end the body of the
sample loop normally with the same token, the same `delCount` and `insCount`, and
tallies in which each key has the same count. -/
theorem sample_genotype_order (p : Nat) (R : GoString) (alts : List GoString) (call : Call)
    (seen : GoMap) (i j : Int)
    (hcall : getCall p R alts = some call) (herr : call.err = none)
    (hi : 0 ≤ i ∧ i ≤ (alts.length : Int)) (hj : 0 ≤ j ∧ j ≤ (alts.length : Int)) :
    ∃ token g g',
      sampleBody call.ref call.alt call.alleleTypes ⟨[i, j]⟩ seen = .ok (token, g) ∧
      sampleBody call.ref call.alt call.alleleTypes ⟨[j, i]⟩ seen = .ok (token, g') ∧
      g.delCount = g'.delCount ∧ g.insCount = g'.insCount ∧
      ∀ k, List.lookup k g.seenGenos = List.lookup k g'.seenGenos := by
  obtain ⟨hR, hA⟩ := getCall_ok_inv p R alts call hcall herr
  rw [getCall_valid p R alts hR hA] at hcall
  cases hcall
  have hij : ∀ k ∈ ([i, j] : List Int), 0 ≤ k ∧ k ≤ (alts.length : Int) := by
    intro k hk
    simp only [List.mem_cons, List.mem_singleton, List.mem_nil_iff, or_false] at hk
    rcases hk with h | h <;> subst h <;> assumption
  have hji : ∀ k ∈ ([j, i] : List Int), 0 ≤ k ∧ k ≤ (alts.length : Int) := by
    intro k hk
    simp only [List.mem_cons, List.mem_singleton, List.mem_nil_iff, or_false] at hk
    rcases hk with h | h <;> subst h <;> assumption
  have h1 := sampleBody_accepted R alts hA ⟨[i, j]⟩ (by simp) hij seen
  have h2 := sampleBody_accepted R alts hA ⟨[j, i]⟩ (by simp) hji seen
  rw [← sampleToken_pair_comm R alts hR hA i j hi hj] at h2
  refine ⟨_, _, _, h1, h2, ?_, ?_, ?_⟩
  · simp only [List.countP_cons, List.countP_nil]
    push_cast
    omega
  · simp only [List.countP_cons, List.countP_nil]
    push_cast
    omega
  · intro k
    simp only [List.foldl_cons, List.foldl_nil]
    exact lookup_count_comm seen _ _ k

/-- Witness of C19: reference `A`, alternate `C`; the genotypes `[0, 1]` and `[1, 0]`
both give `M`. -/
theorem sample_genotype_order_witness :
    (∃ token g g',
      sampleBody ['A'] [['C']] [['S']] ⟨[0, 1]⟩ [] = .ok (token, g) ∧
      sampleBody ['A'] [['C']] [['S']] ⟨[1, 0]⟩ [] = .ok (token, g') ∧
      g.delCount = g'.delCount ∧ g.insCount = g'.insCount ∧
      ∀ k, List.lookup k g.seenGenos = List.lookup k g'.seenGenos) ∧
    sampleBody ['A'] [['C']] [['S']] ⟨[1, 0]⟩ [] =
      .ok (['M'], ⟨['C', 'A'], 0, 0, [(['C'], 1), (['A'], 1)]⟩) :=
  ⟨sample_genotype_order 100 ['A'] [['C']] ⟨100, ['A'], [['C']], [['S']], none⟩ [] 0 1
    (by decide) rfl (by decide) (by decide), by decide⟩

/-! ## The run-scoped counters across records -/

theorem processRecord_state_irrelevant (st st' : RunState) (v : Variant)
    (h : v.Samples ≠ []) : (processRecord st v).row? = (processRecord st' v).row? := by
  obtain ⟨Chromosome, Pos, Reference, Alternate, Samples⟩ := v
  cases Samples with
  | nil => exact absurd rfl h
  | cons s rest =>
    simp only [processRecord, sampleLoop]
    cases getCall Pos Reference Alternate with
    | none => rfl
    | some call =>
      obtain ⟨pos, ref, alt, alleleTypes, err⟩ := call
      cases err with
      | some e => rfl
      | none => rfl

/-- Claim C17, at an input on which the code departs from it.  The record at position
200 has no sample.  Processed first it gets the call type `SNP`; processed after a record
whose last sample is a homozygous deletion it gets the call type `DEL`, because
`delCount` is reset at the start of each sample only and the classification reads the
value the earlier record left. -/
theorem callType_inherits_counters :
    (run [⟨"chr1".toList, 200, ['A'], [['C']], []⟩]).1.map
        (fun r => (r.pos, r.callType)) = [(200, "SNP".toList)] ∧
    (run [⟨"chr1".toList, 100, ['A', 'C', 'G', 'T'], [['A']], [⟨[1, 1]⟩]⟩,
          ⟨"chr1".toList, 200, ['A'], [['C']], []⟩]).1.map
        (fun r => (r.pos, r.callType)) = [(103, "DEL".toList), (200, "DEL".toList)] ∧
    (processRecord ⟨0, 0⟩ ⟨"chr1".toList, 200, ['A'], [['C']], []⟩).row?.map
        (fun r => r.callType) = some "SNP".toList ∧
    (processRecord ⟨0, 2⟩ ⟨"chr1".toList, 200, ['A'], [['C']], []⟩).row?.map
        (fun r => r.callType) = some "DEL".toList := by
  decide

/-! ## The sample loop, exactly -/

theorem index_some_range {α : Type} (l : List α) (i : Int) (a : α)
    (h : index l i = some a) : 0 ≤ i ∧ i < (l.length : Int) := by
  unfold index at h
  split at h
  · rename_i h0
    rw [List.get?_eq_getElem?] at h
    have hlt : i.toNat < l.length := by
      by_contra hge
      rw [List.getElem?_eq_none (by omega)] at h
      cases h
    omega
  · cases h

theorem genotypeBody_some_range {α : Type} (ref : GoString) (alts : List α)
    (f g : α → GoString) (i : Int) (s s' : GenotypeState)
    (h : genotypeBody ref (alts.map f) (alts.map g) i s = some s') :
    0 ≤ i ∧ i ≤ (alts.length : Int) := by
  by_cases h0 : i = 0
  · subst h0
    exact ⟨le_refl _, by omega⟩
  · have hb : (i == 0) = false := by simpa using h0
    unfold genotypeBody at h
    simp only [hb] at h
    cases hidx : index (alts.map g) (i - 1) with
    | none => simp [hidx] at h
    | some t =>
      have := index_some_range _ _ _ hidx
      simp only [List.length_map] at this
      omega

theorem genotypeLoop_some_range {α : Type} (ref : GoString) (alts : List α)
    (f g : α → GoString) (GT : List Int) (s s' : GenotypeState)
    (h : genotypeLoop ref (alts.map f) (alts.map g) GT s = some s') :
    ∀ i ∈ GT, 0 ≤ i ∧ i ≤ (alts.length : Int) := by
  induction GT generalizing s with
  | nil => simp
  | cons i rest ih =>
    unfold genotypeLoop at h
    cases hb : genotypeBody ref (alts.map f) (alts.map g) i s with
    | none => simp [hb] at h
    | some s1 =>
      simp only [hb] at h
      intro k hk
      rcases List.mem_cons.mp hk with hk | hk
      · subst hk
        exact genotypeBody_some_range ref alts f g k s s1 hb
      · exact ih s1 h k hk

theorem sampleBody_ok_range {α : Type} (ref : GoString) (alts : List α)
    (f g : α → GoString) (sample : SampleGenotype) (seen : GoMap)
    (x : GoString × GenotypeState)
    (h : sampleBody ref (alts.map f) (alts.map g) sample seen = .ok x) :
    sample.GT.length ≤ 2 ∧ ∀ i ∈ sample.GT, 0 ≤ i ∧ i ≤ (alts.length : Int) := by
  unfold sampleBody at h
  by_cases hlen : sample.GT.length > 2
  · simp [hlen] at h
  · simp only [if_neg hlen] at h
    cases hg : genotypeLoop ref (alts.map f) (alts.map g) sample.GT ⟨[], 0, 0, seen⟩ with
    | none => simp [hg] at h
    | some s' => exact ⟨by omega, genotypeLoop_some_range ref alts f g _ _ s' hg⟩

theorem sampleLoop_ok_range {α : Type} (ref : GoString) (alts : List α)
    (f g : α → GoString) (samples : List SampleGenotype) (st st' : SampleState)
    (h : sampleLoop ref (alts.map f) (alts.map g) samples st = .ok st') :
    ∀ s ∈ samples, s.GT.length ≤ 2 ∧ ∀ i ∈ s.GT, 0 ≤ i ∧ i ≤ (alts.length : Int) := by
  induction samples generalizing st with
  | nil => simp
  | cons s rest ih =>
    unfold sampleLoop at h
    cases hb : sampleBody ref (alts.map f) (alts.map g) s st.seenGenos with
    | fatal => simp [hb] at h
    | fault => simp [hb] at h
    | ok x =>
      obtain ⟨token, gs⟩ := x
      simp only [hb] at h
      intro t ht
      rcases List.mem_cons.mp ht with ht | ht
      · subst ht
        exact sampleBody_ok_range ref alts f g t st.seenGenos _ hb
      · exact ih _ h t ht

theorem sampleLoop_accepted_exact (R : GoString) (alts : List GoString)
    (hA : ∀ a ∈ alts, MatchString a = true) (samples : List SampleGenotype)
    (hlen : ∀ s ∈ samples, s.GT.length ≤ 2)
    (hGT : ∀ s ∈ samples, ∀ i ∈ s.GT, 0 ≤ i ∧ i ≤ (alts.length : Int)) (st : SampleState) :
    ∃ st', sampleLoop R.getLast?.toList (alts.map (altOf R)) (alts.map (alleleTypeOf R))
        samples st = .ok st' ∧
      st'.sampleOut =
        st.sampleOut ++ samples.flatMap (fun s => tokenOf R alts s ++ ['\t', '1', '\t']) ∧
      st'.seenGenos =
        (samples.flatMap fun s => s.GT).foldl (fun m i => count m (alleleKey R alts i))
          st.seenGenos := by
  induction samples generalizing st with
  | nil => exact ⟨st, rfl, by simp, by simp⟩
  | cons s rest ih =>
    have hs := sampleBody_accepted R alts hA s (hlen s (List.mem_cons_self s rest))
      (hGT s (List.mem_cons_self s rest)) st.seenGenos
    obtain ⟨st', hst', hout, hseen⟩ := ih (fun t ht => hlen t (List.mem_cons_of_mem s ht))
      (fun t ht => hGT t (List.mem_cons_of_mem s ht))
      ⟨(s.GT.countP (pointsToDeletion R alts) : Nat),
        (s.GT.countP (pointsToInsertion R alts) : Nat),
        st.sampleOut ++ tokenOf R alts s ++ ['\t', '1', '\t'],
        s.GT.foldl (fun m i => count m (alleleKey R alts i)) st.seenGenos⟩
    refine ⟨st', ?_, ?_, ?_⟩
    · simp only [sampleLoop, hs]
      exact hst'
    · rw [hout]
      simp only [List.flatMap_cons, List.append_assoc]
    · rw [hseen]
      simp only [List.flatMap_cons, List.foldl_append]

/-! ## Accounting of the tally -/

theorem valueAt_count (m : GoMap) (key k : GoString) :
    (count m key).valueAt k = m.valueAt k + if key == k then 1 else 0 := by
  unfold GoMap.valueAt
  rw [lookup_count]
  by_cases h : k = key
  · subst h
    simp
  · have h' : ¬ key = k := fun e => h e.symm
    have hb : (key == k) = false := by simpa using h'
    simp [h, hb]

theorem valueAt_foldl_count (f : Int → GoString) (slots : List Int) (m : GoMap)
    (k : GoString) :
    (slots.foldl (fun m i => count m (f i)) m).valueAt k =
      m.valueAt k + (slots.countP (fun i => f i == k) : Nat) := by
  induction slots generalizing m with
  | nil => simp
  | cons i rest ih =>
    rw [List.foldl_cons, ih, valueAt_count, List.countP_cons]
    split
    · push_cast; omega
    · simp

theorem keys_set (m : GoMap) (key : GoString) (value : Int) :
    (m.set key value).map Prod.fst =
      if key ∈ m.map Prod.fst then m.map Prod.fst else m.map Prod.fst ++ [key] := by
  induction m with
  | nil => simp [GoMap.set]
  | cons e m ih =>
    obtain ⟨k', v'⟩ := e
    by_cases h : k' = key
    · subst h
      simp [GoMap.set]
    · have h' : ¬ key = k' := fun e => h e.symm
      simp only [GoMap.set, if_neg h, List.map_cons, ih, List.mem_cons, h', false_or]
      split <;> simp

theorem nodup_keys_count (m : GoMap) (key : GoString) (h : (m.map Prod.fst).Nodup) :
    ((count m key).map Prod.fst).Nodup := by
  have hset : ∀ value, ((m.set key value).map Prod.fst).Nodup := by
    intro value
    rw [keys_set]
    split
    · exact h
    · rename_i hnot
      refine List.Nodup.append h (List.nodup_singleton key) ?_
      intro a ha hk
      rw [List.mem_singleton] at hk
      subst hk
      exact hnot ha
  unfold count
  split <;> exact hset _

theorem nodup_keys_foldl_count (f : Int → GoString) (slots : List Int) (m : GoMap)
    (h : (m.map Prod.fst).Nodup) :
    ((slots.foldl (fun m i => count m (f i)) m).map Prod.fst).Nodup := by
  induction slots generalizing m with
  | nil => exact h
  | cons i rest ih => exact ih _ (nodup_keys_count m (f i) h)

theorem sum_set (m : GoMap) (key : GoString) (value : Int) :
    ((m.set key value).map Prod.snd).sum =
      (m.map Prod.snd).sum - m.valueAt key + value := by
  induction m with
  | nil => simp [GoMap.set, GoMap.valueAt]
  | cons e m ih =>
    obtain ⟨k', v'⟩ := e
    by_cases h : k' = key
    · subst h
      simp only [GoMap.set, if_true, List.map_cons, List.sum_cons, GoMap.valueAt,
        List.lookup_cons_self, Option.getD_some]
      omega
    · have h' : ¬ key = k' := fun e => h e.symm
      have hb : (key == k') = false := by simpa using h'
      simp only [GoMap.valueAt] at ih
      simp only [GoMap.set, if_neg h, List.map_cons, List.sum_cons, ih, GoMap.valueAt,
        List.lookup, hb]
      omega

theorem sum_count (m : GoMap) (key : GoString) :
    ((count m key).map Prod.snd).sum = (m.map Prod.snd).sum + 1 := by
  unfold count
  split
  · rename_i hno
    rw [sum_set]
    have : m.valueAt key = 0 := by
      simp only [GoMap.has, Bool.not_eq_true'] at hno
      cases hl : List.lookup key m with
      | none => simp [GoMap.valueAt, hl]
      | some n => simp [hl] at hno
    omega
  · rw [sum_set]
    omega

theorem sum_foldl_count (f : Int → GoString) (slots : List Int) (m : GoMap) :
    ((slots.foldl (fun m i => count m (f i)) m).map Prod.snd).sum =
      (m.map Prod.snd).sum + (slots.length : Int) := by
  induction slots generalizing m with
  | nil => simp
  | cons i rest ih =>
    rw [List.foldl_cons, ih, sum_count, List.length_cons]
    push_cast
    omega

theorem valueAt_of_mem (m : GoMap) (h : (m.map Prod.fst).Nodup) (e : GoString × Int)
    (he : e ∈ m) : m.valueAt e.1 = e.2 := by
  induction m with
  | nil => cases he
  | cons a m ih =>
    obtain ⟨k', v'⟩ := a
    simp only [List.map_cons, List.nodup_cons] at h
    rcases List.mem_cons.mp he with he | he
    · subst he
      simp [GoMap.valueAt]
    · have hne : ¬ e.1 = k' := by
        intro heq
        apply h.1
        rw [← heq]
        exact List.mem_map_of_mem Prod.fst he
      have hb : (e.1 == k') = false := by simpa using hne
      have := ih h.2 he
      simp only [GoMap.valueAt] at this ⊢
      simp only [List.lookup, hb]
      exact this

theorem callKey_eq_alleleKey (R : GoString) (alts : List GoString) (pos : Nat)
    (types : List GoString) (err : Option CallError) (i : Int) :
    callKey ⟨pos, R.getLast?.toList, alts.map (altOf R), types, err⟩ i = alleleKey R alts i := by
  unfold callKey alleleKey
  split
  · rfl
  · simp only [index_map]
    cases index alts (i - 1) <;> rfl

theorem processRecord_wrote_accepted (st : RunState) (v : Variant) (row : Row)
    (next : RunState) (h : processRecord st v = .wrote row next) :
    MatchString v.Reference = true ∧ (∀ a ∈ v.Alternate, MatchString a = true) ∧
      (∀ s ∈ v.Samples, s.GT.length ≤ 2) ∧
      (∀ s ∈ v.Samples, ∀ i ∈ s.GT, 0 ≤ i ∧ i ≤ (v.Alternate.length : Int)) ∧
      row.samples = TrimRightTab
        (v.Samples.flatMap
          (fun s => tokenOf v.Reference v.Alternate s ++ ['\t', '1', '\t'])) ∧
      row.seenGenos =
        (genotypeSlots v).foldl (fun m i => count m (alleleKey v.Reference v.Alternate i)) [] := by
  obtain ⟨call, s, hcall, herr, hs, hrow, _⟩ := processRecord_wrote_inv st v row next h
  obtain ⟨hR, hA⟩ := getCall_ok_inv _ _ _ call hcall herr
  rw [getCall_valid _ _ _ hR hA] at hcall
  cases hcall
  simp only at hs hrow
  have hrange := sampleLoop_ok_range _ v.Alternate _ _ v.Samples _ s hs
  have hlen : ∀ t ∈ v.Samples, t.GT.length ≤ 2 := fun t ht => (hrange t ht).1
  have hGT : ∀ t ∈ v.Samples, ∀ i ∈ t.GT, 0 ≤ i ∧ i ≤ (v.Alternate.length : Int) :=
    fun t ht => (hrange t ht).2
  obtain ⟨s', hs', hout, hseen⟩ := sampleLoop_accepted_exact v.Reference v.Alternate hA
    v.Samples hlen hGT ⟨st.delCount, st.insCount, [], []⟩
  rw [hs] at hs'
  cases hs'
  refine ⟨hR, hA, hlen, hGT, ?_, ?_⟩
  · rw [hrow, hout]
    simp
  · rw [hrow, hseen]
    rfl

/-- Claim C16.  On a record `getCall` accepts whose samples carry genotype indices in
`0..len(alts)` only: a row is written when no sample has more than two indices, and in
each row written the tally, built from the empty map, has pairwise different keys, the
count of each key is the number of genotype indices of the record (over its samples)
whose allele representation -- `ref` for index 0, `alt[i-1]` for index `i` -- is that key,
each count is at least 1, and the counts add up to the number of genotype indices of the
record. -/
theorem tally_counts (st : RunState) (v : Variant) (call : Call)
    (hcall : getCall v.Pos v.Reference v.Alternate = some call) (herr : call.err = none)
    (hGT : ∀ s ∈ v.Samples, ∀ i ∈ s.GT, 0 ≤ i ∧ i ≤ (v.Alternate.length : Int)) :
    ((∀ s ∈ v.Samples, s.GT.length ≤ 2) →
      ∃ row next, processRecord st v = .wrote row next) ∧
    ∀ row next, processRecord st v = .wrote row next →
      (row.seenGenos.map Prod.fst).Nodup ∧
      (∀ e ∈ row.seenGenos,
        e.2 = ((genotypeSlots v).countP (fun i => callKey call i == e.1) : Nat) ∧ 1 ≤ e.2) ∧
      (∀ k, row.seenGenos.valueAt k =
        ((genotypeSlots v).countP (fun i => callKey call i == k) : Nat)) ∧
      (row.seenGenos.map Prod.snd).sum = ((genotypeSlots v).length : Int) := by
  obtain ⟨hR, hA⟩ := getCall_ok_inv _ _ _ call hcall herr
  rw [getCall_valid _ _ _ hR hA] at hcall
  cases hcall
  constructor
  · intro hlen
    obtain ⟨s, _, _, hrow⟩ := processRecord_accepted st v hR hA hlen hGT
    exact ⟨_, _, hrow⟩
  · intro row next hrow
    obtain ⟨_, _, _, _, _, hseen⟩ := processRecord_wrote_accepted st v row next hrow
    have hkey : ∀ k, (fun i => callKey ⟨posAfter v.Pos v.Reference v.Alternate 0,
          v.Reference.getLast?.toList, v.Alternate.map (altOf v.Reference),
          v.Alternate.map (alleleTypeOf v.Reference), none⟩ i == k) =
        (fun i => alleleKey v.Reference v.Alternate i == k) := by
      intro k
      funext i
      rw [callKey_eq_alleleKey]
    have hnodup : (row.seenGenos.map Prod.fst).Nodup := by
      rw [hseen]
      exact nodup_keys_foldl_count _ _ [] (by simp)
    have hval : ∀ k, row.seenGenos.valueAt k =
        ((genotypeSlots v).countP (fun i => alleleKey v.Reference v.Alternate i == k) : Nat) := by
      intro k
      rw [hseen, valueAt_foldl_count]
      simp [GoMap.valueAt]
    refine ⟨hnodup, ?_, ?_, ?_⟩
    · intro e he
      have h1 := valueAt_of_mem row.seenGenos hnodup e he
      rw [hval e.1] at h1
      rw [hkey e.1]
      refine ⟨h1.symm, ?_⟩
      have hmem : e.1 ∈ row.seenGenos.map Prod.fst := List.mem_map_of_mem Prod.fst he
      rw [hseen, mem_keys_foldl_count] at hmem
      rcases hmem with hmem | ⟨i, hi, hik⟩
      · simp at hmem
      · have hpos : 0 < (genotypeSlots v).countP
            (fun i => alleleKey v.Reference v.Alternate i == e.1) :=
          List.countP_pos_iff.mpr ⟨i, hi, by simp [hik]⟩
        rw [← h1]
        omega
    · intro k
      rw [hkey k]
      exact hval k
    · rw [hseen, sum_foldl_count]
      simp

/-- Witness of C16: reference `A`, alternates `C` and `AT`, samples `0/1`, `1/1` and
`2`; the tally holds `A` once, `C` three times and `+T` once, five indices in all. -/
theorem tally_counts_witness :
    (∃ row next, processRecord ⟨0, 0⟩
        ⟨"chr1".toList, 100, ['A'], [['C'], ['A', 'T']], [⟨[0, 1]⟩, ⟨[1, 1]⟩, ⟨[2]⟩]⟩ =
          .wrote row next) ∧
    (([(['A'], 1), (['C'], 3), (['+', 'T'], 1)] : GoMap).map Prod.fst).Nodup ∧
    (∀ e ∈ ([(['A'], 1), (['C'], 3), (['+', 'T'], 1)] : GoMap),
      e.2 = ((genotypeSlots
          ⟨"chr1".toList, 100, ['A'], [['C'], ['A', 'T']], [⟨[0, 1]⟩, ⟨[1, 1]⟩, ⟨[2]⟩]⟩).countP
        (fun i => callKey ⟨100, ['A'], [['C'], ['+', 'T']], [['S'], ['I']], none⟩ i == e.1)
          : Nat) ∧ 1 ≤ e.2) ∧
    (∀ k, GoMap.valueAt [(['A'], 1), (['C'], 3), (['+', 'T'], 1)] k =
      ((genotypeSlots
          ⟨"chr1".toList, 100, ['A'], [['C'], ['A', 'T']], [⟨[0, 1]⟩, ⟨[1, 1]⟩, ⟨[2]⟩]⟩).countP
        (fun i => callKey ⟨100, ['A'], [['C'], ['+', 'T']], [['S'], ['I']], none⟩ i == k)
          : Nat)) ∧
    (([(['A'], 1), (['C'], 3), (['+', 'T'], 1)] : GoMap).map Prod.snd).sum =
      ((genotypeSlots
          ⟨"chr1".toList, 100, ['A'], [['C'], ['A', 'T']], [⟨[0, 1]⟩, ⟨[1, 1]⟩, ⟨[2]⟩]⟩).length
        : Int) :=
  ⟨(tally_counts ⟨0, 0⟩
      ⟨"chr1".toList, 100, ['A'], [['C'], ['A', 'T']], [⟨[0, 1]⟩, ⟨[1, 1]⟩, ⟨[2]⟩]⟩
      ⟨100, ['A'], [['C'], ['+', 'T']], [['S'], ['I']], none⟩ (by decide) rfl
      (by decide)).1 (by decide),
   (tally_counts ⟨0, 0⟩
      ⟨"chr1".toList, 100, ['A'], [['C'], ['A', 'T']], [⟨[0, 1]⟩, ⟨[1, 1]⟩, ⟨[2]⟩]⟩
      ⟨100, ['A'], [['C'], ['+', 'T']], [['S'], ['I']], none⟩ (by decide) rfl
      (by decide)).2
      ⟨"chr1".toList, 100, ['A'], "MULTIALLELIC".toList, "A,C,+T".toList, "1,3,1".toList,
        "M\t1\tC\t1\tI\t1".toList, [(['A'], 1), (['C'], 3), (['+', 'T'], 1)]⟩ ⟨1, 0⟩
      (by decide)⟩

/-! ## The sample columns of a row -/

theorem intercalate_cons_cons (sep a b : GoString) (l : List GoString) :
    List.intercalate sep (a :: b :: l) = a ++ sep ++ List.intercalate sep (b :: l) := by
  simp [List.intercalate]

theorem sample_columns_split (tokens : List GoString) (h : tokens ≠ []) :
    ∃ y, List.intercalate ['\t'] (tokens.flatMap fun t => [t, ['1']]) = y ++ ['1'] ∧
      tokens.flatMap (fun t => t ++ ['\t', '1', '\t']) = y ++ ['1', '\t'] := by
  induction tokens with
  | nil => exact absurd rfl h
  | cons t rest ih =>
    cases rest with
    | nil =>
      refine ⟨t ++ ['\t'], ?_, ?_⟩
      · simp [List.intercalate]
      · simp
    | cons t' rest' =>
      obtain ⟨y, hy1, hy2⟩ := ih (List.cons_ne_nil t' rest')
      have hW : ∃ W, ((t' :: rest').flatMap fun t => [t, ['1']]) = t' :: W :=
        ⟨_, by rw [List.flatMap_cons]; rfl⟩
      obtain ⟨W, hW⟩ := hW
      have hF : ((t :: t' :: rest').flatMap fun t => [t, ['1']]) =
          t :: ['1'] :: ((t' :: rest').flatMap fun t => [t, ['1']]) := by
        rw [List.flatMap_cons]; rfl
      refine ⟨t ++ ['\t'] ++ ['1'] ++ ['\t'] ++ y, ?_, ?_⟩
      · rw [hF, intercalate_cons_cons, hW, intercalate_cons_cons, ← hW, hy1]
        simp
      · rw [List.flatMap_cons, hy2]
        simp

theorem TrimRightTab_columns (tokens : List GoString) :
    TrimRightTab (tokens.flatMap fun t => t ++ ['\t', '1', '\t']) =
      List.intercalate ['\t'] (tokens.flatMap fun t => [t, ['1']]) ∧
    (tokens ≠ [] →
      (List.intercalate ['\t'] (tokens.flatMap fun t => [t, ['1']])).getLast? = some '1') := by
  by_cases h : tokens = []
  · subst h
    exact ⟨by simp [TrimRightTab, List.intercalate], fun hne => absurd rfl hne⟩
  · obtain ⟨y, hy1, hy2⟩ := sample_columns_split tokens h
    refine ⟨?_, fun _ => by rw [hy1]; simp⟩
    rw [hy1, hy2]
    have h1 : y ++ ['1', '\t'] = (y ++ ['1']) ++ ['\t'] := by simp
    unfold TrimRightTab
    rw [h1, List.rdropWhile_concat_pos _ _ _ (by decide),
      List.rdropWhile_concat_neg _ _ _ (by decide)]

/-- Claim C20.  A row is written for each record `getCall` accepts whose samples carry
at most two genotype indices in `0..len(alts)`.  In each row written, the part of the
line between the tab after the allele-count column and the newline is the list
`token(s1), 1, ..., token(sN), 1` in sample order, two fields per sample, joined by
single tabs, where `token(s)` is the token the body of the sample loop yields for `s`;
with at least one sample this part ends in `1`, so no tab precedes the newline. -/
theorem row_sample_columns (st : RunState) (v : Variant) :
    (MatchString v.Reference = true → (∀ a ∈ v.Alternate, MatchString a = true) →
      (∀ s ∈ v.Samples, s.GT.length ≤ 2) →
      (∀ s ∈ v.Samples, ∀ i ∈ s.GT, 0 ≤ i ∧ i ≤ (v.Alternate.length : Int)) →
      ∃ row next, processRecord st v = .wrote row next) ∧
    ∀ row next, processRecord st v = .wrote row next →
      (∃ call, getCall v.Pos v.Reference v.Alternate = some call ∧ call.err = none ∧
        ∀ s ∈ v.Samples, ∀ seen, ∃ g,
          sampleBody call.ref call.alt call.alleleTypes s seen =
            .ok (tokenOf v.Reference v.Alternate s, g)) ∧
      row.samples =
        List.intercalate ['\t']
          (v.Samples.flatMap fun s => [tokenOf v.Reference v.Alternate s, ['1']]) ∧
      row.line =
        row.Chromosome ++ ['\t'] ++ FormatUint row.pos ++ ['\t'] ++ row.ref ++ ['\t'] ++
          row.callType ++ ['\t'] ++ row.altBuff ++ ['\t'] ++ row.altCountBuff ++ ['\t'] ++
          List.intercalate ['\t']
            (v.Samples.flatMap fun s => [tokenOf v.Reference v.Alternate s, ['1']]) ++
          ['\n'] ∧
      (v.Samples ≠ [] → row.samples.getLast? = some '1') := by
  constructor
  · intro hR hA hlen hGT
    obtain ⟨s, _, _, hrow⟩ := processRecord_accepted st v hR hA hlen hGT
    exact ⟨_, _, hrow⟩
  · intro row next hrow
    obtain ⟨hR, hA, hlen, hGT, hsamples, _⟩ := processRecord_wrote_accepted st v row next hrow
    have hmap : (v.Samples.flatMap
          fun s => tokenOf v.Reference v.Alternate s ++ ['\t', '1', '\t']) =
        (v.Samples.map (tokenOf v.Reference v.Alternate)).flatMap
          fun t => t ++ ['\t', '1', '\t'] := by
      simp [List.flatMap, List.map_map, Function.comp_def]
    have hmap' : (v.Samples.flatMap
          fun s => [tokenOf v.Reference v.Alternate s, ['1']]) =
        (v.Samples.map (tokenOf v.Reference v.Alternate)).flatMap fun t => [t, ['1']] := by
      simp [List.flatMap, List.map_map, Function.comp_def]
    obtain ⟨htrim, hlast⟩ := TrimRightTab_columns (v.Samples.map (tokenOf v.Reference v.Alternate))
    have hs : row.samples = List.intercalate ['\t']
        (v.Samples.flatMap fun s => [tokenOf v.Reference v.Alternate s, ['1']]) := by
      rw [hsamples, hmap, hmap', htrim]
    refine ⟨⟨_, getCall_valid _ _ _ hR hA, rfl, ?_⟩, hs, ?_, ?_⟩
    · intro s hs' seen
      exact ⟨_, sampleBody_accepted v.Reference v.Alternate hA s (hlen s hs') (hGT s hs') seen⟩
    · rw [← hs]
      rfl
    · intro hne
      rw [hs, hmap']
      exact hlast (by simpa using hne)

/-- Witness of C20: reference `A`, alternates `C` and `AT`, samples `0/1`, `1/1` and
`2`; the sample part of the row is `M 1 C 1 I 1`, joined by tabs. -/
theorem row_sample_columns_witness :
    (∃ row next, processRecord ⟨0, 0⟩
        ⟨"chr1".toList, 100, ['A'], [['C'], ['A', 'T']], [⟨[0, 1]⟩, ⟨[1, 1]⟩, ⟨[2]⟩]⟩ =
          .wrote row next) ∧
    "M\t1\tC\t1\tI\t1".toList =
      List.intercalate ['\t']
        ([(⟨[0, 1]⟩ : SampleGenotype), ⟨[1, 1]⟩, ⟨[2]⟩].flatMap
          fun s => [tokenOf ['A'] [['C'], ['A', 'T']] s, ['1']]) ∧
    ("M\t1\tC\t1\tI\t1".toList).getLast? = some '1' :=
  ⟨(row_sample_columns ⟨0, 0⟩
      ⟨"chr1".toList, 100, ['A'], [['C'], ['A', 'T']], [⟨[0, 1]⟩, ⟨[1, 1]⟩, ⟨[2]⟩]⟩).1
      (by decide) (by decide) (by decide) (by decide),
    ((row_sample_columns ⟨0, 0⟩
      ⟨"chr1".toList, 100, ['A'], [['C'], ['A', 'T']], [⟨[0, 1]⟩, ⟨[1, 1]⟩, ⟨[2]⟩]⟩).2
      ⟨"chr1".toList, 100, ['A'], "MULTIALLELIC".toList, "A,C,+T".toList, "1,3,1".toList,
        "M\t1\tC\t1\tI\t1".toList, [(['A'], 1), (['C'], 3), (['+', 'T'], 1)]⟩ ⟨1, 0⟩
      (by decide)).2.1,
    ((row_sample_columns ⟨0, 0⟩
      ⟨"chr1".toList, 100, ['A'], [['C'], ['A', 'T']], [⟨[0, 1]⟩, ⟨[1, 1]⟩, ⟨[2]⟩]⟩).2
      ⟨"chr1".toList, 100, ['A'], "MULTIALLELIC".toList, "A,C,+T".toList, "1,3,1".toList,
        "M\t1\tC\t1\tI\t1".toList, [(['A'], 1), (['C'], 3), (['+', 'T'], 1)]⟩ ⟨1, 0⟩
      (by decide)).2.2.2 (by decide)⟩

end Vcf2snp
